import Mathlib

/-
Verification of the cave-explorer simulation core (src/main.py) against its
natural-language specification.

Shallow embedding conventions:
  * Cells are encoded as in the source: Floor = 0, Wall = 1, StairsDown = 2,
    StairsUp = 3.  A grid is a total function from integer coordinates to a
    cell value; the numpy array of shape (cols, rows) is the restriction of
    that function to in-bounds coordinates, and every embedded operation only
    reads in-bounds cells (numpy roll wraps indices, which the embedding
    reproduces with integer emod).
  * Randomness is injected: a random draw becomes an explicit parameter
    (an index into the list of floor points, a die roll, a wander choice, a
    noise grid for the initial random fill), mirroring the seedable random
    source required by the specification.
  * The field-of-view code steps rays by float cosine/sine increments.
    Floating point is not modelled; the direction table is an arbitrary
    parameter (dir) of rational pairs, and everything proved about the
    raycast holds for every direction table, in particular for the table of
    cosines/sines at 3-degree steps used by the source.
-/

/-- Integer grid coordinate, written (x, y) exactly as the source indexes
grid[x, y]. -/
abbrev Pos := Int × Int

/-- A grid of cell values; Floor = 0, Wall = 1, StairsDown = 2, StairsUp = 3. -/
abbrev Grid := Int → Int → Nat

/-- Coordinate (x, y) is inside a cols-by-rows grid, the check
0 <= x < grid.shape[0] and 0 <= y < grid.shape[1] of the source. -/
abbrev inBounds (cols rows : Nat) (x y : Int) : Prop :=
  0 ≤ x ∧ x < (cols : Int) ∧ 0 ≤ y ∧ y < (rows : Int)

/-- Coordinate (i, j) lies on the border ring that the generator forces to
Wall: row 0, row -1, column 0, column -1 in numpy terms. -/
abbrev onBorder (cols rows : Nat) (i j : Int) : Prop :=
  i = 0 ∨ i = (cols : Int) - 1 ∨ j = 0 ∨ j = (rows : Int) - 1

/-- The finite set of all in-bounds coordinates of a cols-by-rows grid. -/
def allCells (cols rows : Nat) : Finset Pos :=
  Finset.Icc ((0 : Int), (0 : Int)) ((cols : Int) - 1, (rows : Int) - 1)

/-- The eight Moore-neighborhood shift vectors used by CaveGenerator.smooth
(src/main.py lines 287-291). -/
def shifts : List (Int × Int) :=
  [(-1, -1), (-1, 0), (-1, 1), (0, -1), (0, 1), (1, -1), (1, 0), (1, 1)]

/-- The four direct neighbors checked by the flood fill
(src/main.py lines 343-346), in source order. -/
def nbrs4 (p : Pos) : List Pos :=
  [(p.1 - 1, p.2), (p.1 + 1, p.2), (p.1, p.2 - 1), (p.1, p.2 + 1)]

/-- All in-bounds coordinates in the scan order of the double loop
for x in range(cols): for y in range(rows), which is also the row-major
order in which numpy argwhere lists indices of a (cols, rows) array. -/
def scanOrder (cols rows : Nat) : List Pos :=
  (List.range cols).flatMap
    (fun x => (List.range rows).map (fun y : Nat => ((x : Int), (y : Int))))

/-- Neighbor sum computed by CaveGenerator.smooth: for each shift the grid is
rotated with np.roll (toroidal index wrap, embedded by emod) and the rolled
grids are summed cellwise (src/main.py lines 293-297). -/
def neighborSum (cols rows : Nat) (g : Grid) (i j : Int) : Nat :=
  (shifts.map (fun s => g ((i - s.1) % (cols : Int)) ((j - s.2) % (rows : Int)))).sum

/-- One smoothing step of CaveGenerator.smooth (src/main.py lines 283-312):
new_walls = (grid == 1 and neighbors >= 4) or (grid == 0 and neighbors >= 5),
the grid is rewritten to 1 on new_walls and 0 elsewhere, and the border ring
is forced back to Wall afterwards. -/
def smooth (cols rows : Nat) (g : Grid) : Grid := fun i j =>
  if onBorder cols rows i j then 1
  else if (g i j = 1 ∧ 4 ≤ neighborSum cols rows g i j)
        ∨ (g i j = 0 ∧ 5 ≤ neighborSum cols rows g i j) then 1
  else 0

/-- Count of wall-valued cells among the eight Moore neighbors where
out-of-grid neighbors simply do not count, written from the words of the
specification.  The neighborhood is enumerated by the same (symmetric) shift
set as the source, each shift contributing 1 exactly when the neighbor is
in bounds and holds a Wall. -/
def mooreWallCount (cols rows : Nat) (g : Grid) (i j : Int) : Nat :=
  (shifts.map (fun s =>
    if inBounds cols rows (i - s.1) (j - s.2) ∧ g (i - s.1) (j - s.2) = 1 then 1 else 0)).sum

/-- One smoothing step written from the words of the specification: a wall
cell remains a wall iff its neighbor-wall-count is at least 4, a floor cell
becomes a wall iff its neighbor-wall-count is at least 5, otherwise the cell
is unchanged, and the full border ring is re-enforced to Wall. -/
def smoothSpec (cols rows : Nat) (g : Grid) : Grid := fun i j =>
  if onBorder cols rows i j then 1
  else if g i j = 1 then (if 4 ≤ mooreWallCount cols rows g i j then 1 else 0)
  else if g i j = 0 then (if 5 ≤ mooreWallCount cols rows g i j then 1 else g i j)
  else g i j

/-- Border enforcement applied to the noise grid before smoothing
(src/main.py lines 250-254). -/
def enforce_border (cols rows : Nat) (g : Grid) : Grid := fun i j =>
  if onBorder cols rows i j then 1 else g i j

/-- The list of floor coordinates np.argwhere(grid == 0), in argwhere's
row-major order (src/main.py line 317). -/
def floor_points (cols rows : Nat) (g : Grid) : List Pos :=
  (scanOrder cols rows).filter (fun p => decide (g p.1 p.2 = 0))

/-- CaveGenerator.get_random_floor_point (src/main.py lines 314-322): with at
least one floor cell present it returns the floor cell selected by the
uniformly drawn index r (the draw random.randint(0, len - 1) is injected as
the parameter r); with no floor cell it falls back to the grid center
(cols // 2, rows // 2). -/
def get_random_floor_point (cols rows : Nat) (g : Grid) (r : Nat) : Pos :=
  let fp := floor_points cols rows g
  if fp.isEmpty then (((cols / 2 : Nat) : Int), ((rows / 2 : Nat) : Int))
  else fp.getD r ((0 : Int), (0 : Int))

/-- One neighbor inspection of the flood-fill inner loop (src/main.py lines
348-353): if the neighbor is in bounds, of the requested cell type and not
yet visited, it is marked visited and appended.  State is (newly appended
cells, set of still-unvisited cells); the unvisited set is the complement of
the visited array of the source, restricted to in-bounds cells. -/
def visitOne (cols rows : Nat) (g : Grid) (t : Nat) (acc : List Pos × Finset Pos) (n : Pos) :
    List Pos × Finset Pos :=
  if inBounds cols rows n.1 n.2 ∧ g n.1 n.2 = t ∧ n ∈ acc.2 then (acc.1 ++ [n], acc.2.erase n)
  else acc

/-- Inspect the four direct neighbors of a dequeued cell in source order. -/
def visitNbrs (cols rows : Nat) (g : Grid) (t : Nat) (c : Pos) (rem : Finset Pos) :
    List Pos × Finset Pos :=
  (nbrs4 c).foldl (visitOne cols rows g t) ([], rem)

/-- The flood-fill queue loop of CaveGenerator.get_regions (src/main.py lines
337-353).  The source appends exactly the same cells to queue and to region,
so region equals the final queue; the embedding keeps one list, split into
the already-dequeued part (region, the cells with index < idx) and the
pending part (the cells with index >= idx).  Returns the finished region and
the remaining unvisited set. -/
def bfs (cols rows : Nat) (g : Grid) (t : Nat) :
    List Pos → List Pos → Finset Pos → List Pos × Finset Pos
  | [], region, rem => (region, rem)
  | c :: rest, region, rem =>
    let vn := visitNbrs cols rows g t c rem
    bfs cols rows g t (rest ++ vn.1) (region ++ [c]) vn.2
termination_by tp _ rem => rem.card + tp.length
decreasing_by
  simp_wf
  have key : ∀ (l : List Pos) (acc : List Pos × Finset Pos),
      ((l.foldl (visitOne cols rows g t) acc).2.card
        + (l.foldl (visitOne cols rows g t) acc).1.length) = acc.2.card + acc.1.length := by
    intro l
    induction l with
    | nil => intro acc; rfl
    | cons n l ih =>
      intro acc
      rw [List.foldl_cons, ih]
      unfold visitOne
      split
      · rename_i h
        have hm := h.2.2
        have hc := Finset.card_erase_of_mem hm
        have hp : 0 < acc.2.card := Finset.card_pos.mpr ⟨n, hm⟩
        simp [hc]
        omega
      · rfl
  have h := key (nbrs4 c) ([], rem)
  simp only [visitNbrs]
  simp at h
  omega

/-- The outer double scan of CaveGenerator.get_regions (src/main.py lines
329-335): each unvisited cell of the requested type seeds a flood fill whose
result is appended to the list of regions. -/
def regionsScan (cols rows : Nat) (g : Grid) (t : Nat) :
    List Pos → Finset Pos → List (List Pos) → List (List Pos)
  | [], _, acc => acc
  | c :: cs, rem, acc =>
    if g c.1 c.2 = t ∧ c ∈ rem then
      regionsScan cols rows g t cs (bfs cols rows g t [c] [] (rem.erase c)).2
        (acc ++ [(bfs cols rows g t [c] [] (rem.erase c)).1])
    else regionsScan cols rows g t cs rem acc

/-- CaveGenerator.get_regions (src/main.py lines 324-355): all maximal
4-connected regions of cells of type t, in discovery (scan) order. -/
def get_regions (cols rows : Nat) (g : Grid) (t : Nat) : List (List Pos) :=
  regionsScan cols rows g t (scanOrder cols rows) (allCells cols rows) []

/-- Stable descending-by-length insertion: an element is placed after exactly
the strictly longer ones, so elements of equal length keep their relative
order.  This realises the contract of the stable Python list.sort with
key=len and reverse=True used by prune_small_regions (src/main.py line 364). -/
def insert_desc (a : List Pos) : List (List Pos) → List (List Pos)
  | [] => [a]
  | b :: bs => if a.length < b.length then b :: insert_desc a bs else a :: b :: bs

/-- Stable sort of the region list, largest first (src/main.py line 364). -/
def sort_len_desc : List (List Pos) → List (List Pos)
  | [] => []
  | a :: as' => insert_desc a (sort_len_desc as')

/-- The first region of maximal length in discovery order, i.e. the region a
stable largest-first sort keeps at the head: ties between equal-size regions
are broken in favor of the first-discovered region in lowest scan order. -/
def first_largest (l : List (List Pos)) : List Pos :=
  l.foldl (fun best r => if best.length < r.length then r else best) []

/-- CaveGenerator.prune_small_regions (src/main.py lines 357-369): if any
floor region exists, every cell of every region except the head of the
stable largest-first sort is overwritten with Wall; with no region the grid
is returned unchanged. -/
def prune_small_regions (cols rows : Nat) (g : Grid) : Grid :=
  let regions := get_regions cols rows g 0
  if regions.isEmpty then g
  else
    let sorted := sort_len_desc regions
    fun i j => if sorted.tail.any (fun reg => decide ((i, j) ∈ reg)) then 1 else g i j

/-- Down-stairs placement (src/main.py lines 264-266): a random floor point
is drawn (draw injected as r) and that cell is overwritten with value 2. -/
def place_down (cols rows : Nat) (g : Grid) (r : Nat) : Grid × Pos :=
  let p := get_random_floor_point cols rows g r
  (fun i j => if (i, j) = p then 2 else g i j, p)

/-- CaveGenerator.generate for level depth 1 (src/main.py lines 241-279):
random noise (injected as the noise grid), border enforcement, five
smoothing iterations, pruning of small regions, down-stairs placement from
draw r0, and a random floor point from draw r1 used as the spawn.  At depth
1 no up-stairs is placed.  Returns (grid, spawn, down-stairs). -/
def generate (cols rows : Nat) (noise : Grid) (r0 r1 : Nat) : Grid × Pos × Pos :=
  let g1 := enforce_border cols rows noise
  let g2 := (smooth cols rows)^[5] g1
  let g3 := prune_small_regions cols rows g2
  let pd := place_down cols rows g3 r0
  let spawn := get_random_floor_point cols rows pd.1 r1
  (pd.1, spawn, pd.2)

/-- One step of 4-adjacency within cells of type t: q is one of the four
direct neighbors of p, in bounds, and of type t. -/
def stepAdj (cols rows : Nat) (g : Grid) (t : Nat) (p q : Pos) : Prop :=
  q ∈ nbrs4 p ∧ inBounds cols rows q.1 q.2 ∧ g q.1 q.2 = t

/-- Connectivity: q is reachable from p through cells of type t. -/
def reach (cols rows : Nat) (g : Grid) (t : Nat) : Pos → Pos → Prop :=
  Relation.ReflTransGen (stepAdj cols rows g t)

/-- Union of the cell sets of a list of regions. -/
def unionSets (l : List (List Pos)) : Finset Pos :=
  l.foldr (fun r s => r.toFinset ∪ s) ∅

/-- Combat resolution of Entity.attack (src/main.py lines 94-113), with the
d20 attack roll and the d6 damage roll injected as parameters.  Returns
(hit, damage dealt, the new hp of the target); a miss deals no damage and
leaves hp unchanged. -/
def resolveAttack (strength ac roll d6 hp : Int) : Bool × Int × Int :=
  if ac ≤ roll + strength then
    (true, max 1 (d6 + strength), hp - max 1 (d6 + strength))
  else (false, 0, hp)

/-- Mutable entity record (src/main.py lines 45-54); display-only fields
(color, name) are omitted. -/
structure Entity where
  x : Int
  y : Int
  hp : Int
  maxHp : Int
  ac : Int
  strength : Int
deriving DecidableEq

/-- The four possible outcomes of Entity.try_move, a tagged rendering of the
duck-typed return value False / "stairs_down" / "stairs_up" / entity / True.
collided carries the roster index of the first entity found at the
destination. -/
inductive MoveResult where
  | blocked
  | stairsDown
  | stairsUp
  | collided (i : Nat)
  | moved
deriving DecidableEq

/-- The roster scan of Entity.try_move (src/main.py lines 85-87): the first
entity in list order, other than self (identity modelled by the index si),
standing at (nx, ny).  k is the index of the list head. -/
def collision_scan : List Entity → Nat → Nat → Int → Int → Option Nat
  | [], _, _, _, _ => none
  | e :: es, k, si, nx, ny =>
    if k ≠ si ∧ e.x = nx ∧ e.y = ny then some k
    else collision_scan es (k + 1) si nx ny

/-- Entity.try_move (src/main.py lines 56-92): bounds check, wall check,
stairs checks, roster collision scan, and finally the move itself.  The
entity e is the element of entities at index si (Python identity `is not
self` is modelled by index inequality).  Returns the tagged outcome and the
entity record after the call (position updated only in the moved case). -/
def try_move (cols rows : Nat) (e : Entity) (dx dy : Int) (g : Grid)
    (entities : List Entity) (si : Nat) : MoveResult × Entity :=
  let nx := e.x + dx
  let ny := e.y + dy
  if ¬ inBounds cols rows nx ny then (.blocked, e)
  else if g nx ny = 1 then (.blocked, e)
  else if g nx ny = 2 then (.stairsDown, e)
  else if g nx ny = 3 then (.stairsUp, e)
  else
    match collision_scan entities 0 si nx ny with
    | some k => (.collided k, e)
    | none => (.moved, { e with x := nx, y := ny })

/-- Map width constant of the source (src/main.py line 8); compute_fov checks
ray coordinates against these module constants, not against the shape of the
grid argument. -/
def MAP_WIDTH : Nat := 100

/-- Map height constant of the source (src/main.py line 8). -/
def MAP_HEIGHT : Nat := 80

/-- Position of the m-th step of a ray started at (x, y) with per-step
increment (dx, dy), after rounding to the nearest integer cell.  The source
accumulates x += dx per step in floating point; with exact rationals the
accumulated coordinate after m steps is x + m * dx. -/
def rayPos (x y dx dy : ℚ) (m : Nat) : Pos :=
  (round (x + (m : ℚ) * dx), round (y + (m : ℚ) * dy))

/-- The inner ray walk of compute_fov (src/main.py lines 382-398): advance up
to the fuel bound, stop immediately (adding nothing) on leaving the map
bounds, and stop on the first Wall cell, which is itself included.  Returns
the list of cells the ray adds to the visible set, in traversal order. -/
def rayWalk (g : Grid) (x y dx dy : ℚ) : Nat → List Pos
  | 0 => []
  | n + 1 =>
    let x' := x + dx
    let y' := y + dy
    let p : Pos := (round x', round y')
    if ¬ inBounds MAP_WIDTH MAP_HEIGHT p.1 p.2 then []
    else if g p.1 p.2 = 1 then [p]
    else p :: rayWalk g x' y' dx dy n

/-- compute_fov (src/main.py lines 371-400): the origin plus the union of the
ray walks for the 120 angles 0, 3, ..., 357 degrees, each ray walking at
most radius * 2 steps.  The float direction (cos angle, sin angle) of each
angle is injected as the table dir, applied at the angle in degrees. -/
def compute_fov (ox oy : Int) (radius : Nat) (g : Grid) (dir : Nat → ℚ × ℚ) : Finset Pos :=
  insert ((ox, oy) : Pos)
    ((List.range 120).foldr
      (fun k s =>
        (rayWalk g (ox : ℚ) (oy : ℚ) (dir (3 * k)).1 (dir (3 * k)).2 (radius * 2)).foldr
          insert s) ∅)

/-- Per-depth persistent level state (src/main.py lines 405-411). -/
structure LevelState where
  grid : Grid
  explored : Finset Pos
  enemies : List Entity
  upPos : Pos
  downPos : Pos

/-- The dungeon-level bookkeeping of main: the depth-indexed store of levels,
the current depth, and the player position. -/
structure GameState where
  levels : Nat → Option LevelState
  depth : Nat
  playerX : Int
  playerY : Int

/-- Events of the level state machine in main.  explore merges a freshly
computed visible set into the explored set of the active level (the source
working set explored_tiles aliases the stored set, so growth of the working
set is growth of the stored set, and the copy written back on departure is
content-equal).  descend carries the freshly generated LevelState that the
stairs_down branch would build if the destination depth does not exist yet.
ascend is the stairs_up branch. -/
inductive GEvent where
  | explore (v : Finset Pos)
  | descend (fresh : LevelState)
  | ascend

/-- One transition of the level state machine (src/main.py lines 659-728).
descend to an existing depth loads the stored level and places the player at
its up-stairs; descend to a new depth stores the fresh level and places the
player at its up-stairs; ascend (only above depth 1) loads the shallower
stored level and places the player at its down-stairs. -/
def applyEvent (s : GameState) (e : GEvent) : GameState :=
  match e with
  | .explore v =>
    match s.levels s.depth with
    | some lvl =>
      { s with levels := fun d =>
          if d = s.depth then some { lvl with explored := lvl.explored ∪ v }
          else s.levels d }
    | none => s
  | .descend fresh =>
    match s.levels (s.depth + 1) with
    | some lvl =>
      { s with depth := s.depth + 1, playerX := lvl.upPos.1, playerY := lvl.upPos.2 }
    | none =>
      { s with depth := s.depth + 1, playerX := fresh.upPos.1, playerY := fresh.upPos.2,
               levels := fun d => if d = s.depth + 1 then some fresh else s.levels d }
  | .ascend =>
    if 1 < s.depth then
      match s.levels (s.depth - 1) with
      | some lvl =>
        { s with depth := s.depth - 1, playerX := lvl.downPos.1, playerY := lvl.downPos.2 }
      | none => s
    else s

/-- A sequence of level state machine transitions. -/
def applyEvents (s : GameState) (es : List GEvent) : GameState :=
  es.foldl applyEvent s

/-- Goblin.__init__ defaults (src/main.py lines 130-132): hp 10, ac 12,
strength 1. -/
def mkGoblin (x y : Int) : Entity :=
  { x := x, y := y, hp := 10, maxHp := 10, ac := 12, strength := 1 }

/-- The initial monster roster of depth 1 (src/main.py lines 444-450): ten
goblins with their default stats.  The spawn positions produced by the
redraw loop (re-rolling draws equal to the player spawn) are injected as the
stream pos. -/
def level1_enemies (pos : Nat → Pos) : List Entity :=
  (List.range 10).map (fun i => mkGoblin (pos i).1 (pos i).2)

/-- The monster roster built on first creation of a deeper level d >= 2
(src/main.py lines 678-692): 10 + d * 2 goblins, each with hp and max hp
10 + d and strength 1 + d / 3 (integer division).  Spawn positions are
injected as the stream pos. -/
def deeper_enemies (d : Nat) (pos : Nat → Pos) : List Entity :=
  (List.range (10 + d * 2)).map (fun i =>
    { mkGoblin (pos i).1 (pos i).2 with
        hp := ((10 + d : Nat) : Int), maxHp := ((10 + d : Nat) : Int),
        strength := ((1 + d / 3 : Nat) : Int) })

/-- The movement delta assembled from the pressed arrow keys (src/main.py
lines 633-639): up and down add to dy, left and right add to dx, and
opposite keys cancel. -/
def input_delta (u d l r : Bool) : Int × Int :=
  ((if l then -1 else 0) + (if r then 1 else 0),
   (if u then -1 else 0) + (if d then 1 else 0))

/-- The acceptance test of the input branch (src/main.py line 641): an action
is attempted exactly when the assembled delta is nonzero (the cooldown gate
is a timing condition orthogonal to the shape of the delta). -/
def move_attempted (u d l r : Bool) : Bool :=
  decide (input_delta u d l r ≠ ((0 : Int), (0 : Int)))

/-- The five wander choices of the goblin AI (src/main.py line 153), in
source order. -/
def wander_dirs : List (Int × Int) :=
  [(0, 1), (0, -1), (1, 0), (-1, 0), (0, 0)]

/-- The step chosen by Goblin.update (src/main.py lines 134-154): chase the
player one cell per axis when the goblin stands on a tile of the player
visibility set, otherwise wander by the injected uniform choice. -/
def goblin_delta (self player : Entity) (visible : Finset Pos) (choice : Nat) : Int × Int :=
  if (self.x, self.y) ∈ visible then
    ((if self.x < player.x then 1 else if player.x < self.x then -1 else 0),
     (if self.y < player.y then 1 else if player.y < self.y then -1 else 0))
  else wander_dirs.getD (choice % 5) (0, 0)

/-- Goblin.update (src/main.py lines 134-160): a dead goblin does nothing, a
zero delta attempts no move, otherwise try_move resolves the single step; a
collision triggers an attack, which never changes the position of the
goblin, so the resulting entity record of the goblin is the second component
of try_move. -/
def goblin_update (cols rows : Nat) (g : Grid) (self player : Entity)
    (entities : List Entity) (si : Nat) (visible : Finset Pos) (choice : Nat) : Entity :=
  if self.hp ≤ 0 then self
  else
    let dd := goblin_delta self player visible choice
    if dd.1 = 0 ∧ dd.2 = 0 then self
    else (try_move cols rows self dd.1 dd.2 g entities si).2

/-! Theorems.  Helper lemmas come first, then, for each claim, one theorem
(with its witness and, where a claim fails, its counterexample). -/

theorem neighborSum_eq_mooreWallCount (cols rows : Nat) (g : Grid) (i j : Int)
    (hg : ∀ x y : Int, inBounds cols rows x y → g x y ≤ 1)
    (hij : inBounds cols rows i j) (hnb : ¬ onBorder cols rows i j) :
    neighborSum cols rows g i j = mooreWallCount cols rows g i j := by
  obtain ⟨hx0, hx1, hy0, hy1⟩ := hij
  simp only [onBorder, not_or] at hnb
  obtain ⟨hb1, hb2, hb3, hb4⟩ := hnb
  have mx : ∀ d : Int, -1 ≤ d → d ≤ 1 → (i - d) % (cols : Int) = i - d := by
    intro d h1 h2
    exact Int.emod_eq_of_lt (by omega) (by omega)
  have my : ∀ d : Int, -1 ≤ d → d ≤ 1 → (j - d) % (rows : Int) = j - d := by
    intro d h1 h2
    exact Int.emod_eq_of_lt (by omega) (by omega)
  have ind : ∀ a b : Int, -1 ≤ a → a ≤ 1 → -1 ≤ b → b ≤ 1 →
      (if inBounds cols rows (i - a) (j - b) ∧ g (i - a) (j - b) = 1 then 1 else 0)
        = g (i - a) (j - b) := by
    intro a b ha1 ha2 hc1 hc2
    have hib : inBounds cols rows (i - a) (j - b) := ⟨by omega, by omega, by omega, by omega⟩
    have hv := hg _ _ hib
    rcases Nat.le_one_iff_eq_zero_or_eq_one.mp hv with h | h
    · simp [h, hib]
    · simp [h, hib]
  simp only [neighborSum, mooreWallCount, shifts, List.map_cons, List.map_nil,
    List.sum_cons, List.sum_nil]
  rw [mx (-1) (by norm_num) (by norm_num), mx 0 (by norm_num) (by norm_num),
    mx 1 (by norm_num) (by norm_num), my (-1) (by norm_num) (by norm_num),
    my 0 (by norm_num) (by norm_num), my 1 (by norm_num) (by norm_num),
    ind (-1) (-1) (by norm_num) (by norm_num) (by norm_num) (by norm_num),
    ind (-1) 0 (by norm_num) (by norm_num) (by norm_num) (by norm_num),
    ind (-1) 1 (by norm_num) (by norm_num) (by norm_num) (by norm_num),
    ind 0 (-1) (by norm_num) (by norm_num) (by norm_num) (by norm_num),
    ind 0 1 (by norm_num) (by norm_num) (by norm_num) (by norm_num),
    ind 1 (-1) (by norm_num) (by norm_num) (by norm_num) (by norm_num),
    ind 1 0 (by norm_num) (by norm_num) (by norm_num) (by norm_num),
    ind 1 1 (by norm_num) (by norm_num) (by norm_num) (by norm_num)]

/-- C1: for every grid holding only wall/floor values (as every grid does
during the smoothing phase) and every smoothing iteration, the new value of
every in-bounds cell is exactly the value prescribed by the specification
rule: neighbor-wall-count over the 8 Moore neighbors with out-of-grid
neighbors not counting (the toroidal np.roll wrap of the source only ever
affects border cells, which are forced back to Wall), wall stays wall iff
count >= 4, floor becomes wall iff count >= 5, otherwise unchanged, and the
whole border ring is re-enforced to Wall. -/
theorem claim1_smooth_matches_spec (cols rows : Nat) (g : Grid)
    (hg : ∀ x y : Int, inBounds cols rows x y → g x y ≤ 1) :
    ∀ i j : Int, inBounds cols rows i j →
      smooth cols rows g i j = smoothSpec cols rows g i j ∧
      (onBorder cols rows i j → smooth cols rows g i j = 1) := by
  intro i j hij
  by_cases hb : onBorder cols rows i j
  · refine ⟨?_, fun _ => by simp [smooth, hb]⟩
    simp [smooth, smoothSpec, hb]
  · refine ⟨?_, fun hc => absurd hc hb⟩
    have key := neighborSum_eq_mooreWallCount cols rows g i j hg hij hb
    have hv := hg i j hij
    rcases Nat.le_one_iff_eq_zero_or_eq_one.mp hv with h | h
    · simp [smooth, smoothSpec, hb, h, key]
    · simp [smooth, smoothSpec, hb, h, key]

/-- Witness for C1 at the constant all-wall 3-by-3 grid and its center. -/
theorem claim1_witness :
    smooth 3 3 (fun _ _ => 1) 1 1 = smoothSpec 3 3 (fun _ _ => 1) 1 1 ∧
    (onBorder 3 3 1 1 → smooth 3 3 (fun _ _ => 1) 1 1 = 1) :=
  claim1_smooth_matches_spec 3 3 (fun _ _ => 1) (fun _ _ _ => le_refl 1) 1 1 (by decide)

/-- C3: combat resolution hits iff roll plus strength modifier reaches the
armor class of the defender; a hit deals damage max(1, d6 + strength), which
is always at least 1, and lowers defender hp by exactly that damage; a miss
leaves hp unchanged.  The d20 and d6 draws are the injected uniform rolls. -/
theorem claim3_resolveAttack (strength ac roll d6 hp : Int) :
    ((resolveAttack strength ac roll d6 hp).1 = true ↔ ac ≤ roll + strength) ∧
    ((resolveAttack strength ac roll d6 hp).1 = true →
      (resolveAttack strength ac roll d6 hp).2.1 = max 1 (d6 + strength) ∧
      1 ≤ (resolveAttack strength ac roll d6 hp).2.1 ∧
      (resolveAttack strength ac roll d6 hp).2.2
        = hp - (resolveAttack strength ac roll d6 hp).2.1) ∧
    ((resolveAttack strength ac roll d6 hp).1 = false →
      (resolveAttack strength ac roll d6 hp).2.2 = hp) := by
  unfold resolveAttack
  split
  · rename_i h
    exact ⟨by simpa using h, fun _ => ⟨rfl, le_max_left 1 _, rfl⟩, by simp⟩
  · rename_i h
    exact ⟨by simpa using h, by simp, fun _ => rfl⟩

/-- Witness for C3 at the scenario of the specification: strength +3,
AC 12, attack roll 15, damage die 4, defender hp 30. -/
theorem claim3_witness :
    ((resolveAttack 3 12 15 4 30).1 = true ↔ (12 : Int) ≤ 15 + 3) ∧
    ((resolveAttack 3 12 15 4 30).1 = true →
      (resolveAttack 3 12 15 4 30).2.1 = max 1 (4 + 3) ∧
      1 ≤ (resolveAttack 3 12 15 4 30).2.1 ∧
      (resolveAttack 3 12 15 4 30).2.2 = 30 - (resolveAttack 3 12 15 4 30).2.1) ∧
    ((resolveAttack 3 12 15 4 30).1 = false → (resolveAttack 3 12 15 4 30).2.2 = 30) :=
  claim3_resolveAttack 3 12 15 4 30

/-- C8 counterexample: holding the up and left arrows together assembles the
diagonal delta (-1, -1), which passes the nonzero acceptance test and is
resolved by try_move as a normal move: on an open grid the player moves
diagonally from (2, 2) to (1, 1).  The claim that the simulation never
accepts and resolves a diagonal player move is therefore false. -/
theorem claim8_counterexample :
    input_delta true false true false = (-1, -1) ∧
    move_attempted true false true false = true ∧
    (input_delta true false true false).1 ≠ 0 ∧
    (input_delta true false true false).2 ≠ 0 ∧
    (try_move 5 5 ⟨2, 2, 30, 30, 14, 3⟩ (-1) (-1) (fun _ _ => 0)
      [⟨2, 2, 30, 30, 14, 3⟩] 0).1 = MoveResult.moved ∧
    (try_move 5 5 ⟨2, 2, 30, 30, 14, 3⟩ (-1) (-1) (fun _ _ => 0)
      [⟨2, 2, 30, 30, 14, 3⟩] 0).2 = ⟨1, 1, 30, 30, 14, 3⟩ := by
  decide

/-- C8 amended: at most one axis of an accepted action is nonzero only when
the held keys do not combine a net horizontal with a net vertical direction;
the input mapping sums the per-key contributions, accepts any nonzero delta,
and in particular accepts and resolves diagonal deltas whenever a net
horizontal and a net vertical key are held together. -/
theorem claim8_input_characterization :
    ∀ u d l r : Bool,
      input_delta u d l r =
        ((if l then -1 else 0) + (if r then 1 else 0),
         (if u then -1 else 0) + (if d then 1 else 0)) ∧
      (move_attempted u d l r = true ↔ input_delta u d l r ≠ (0, 0)) ∧
      (((input_delta u d l r).1 ≠ 0 ∧ (input_delta u d l r).2 ≠ 0) ↔ ((l ≠ r) ∧ (u ≠ d))) ∧
      ((l ≠ r) → (u ≠ d) → move_attempted u d l r = true) := by
  decide

/-- Witness for C8 (amended) at the up-plus-left key combination. -/
theorem claim8_witness :
    input_delta true false true false =
      ((if true then -1 else 0) + (if false then 1 else 0),
       (if true then -1 else 0) + (if false then 1 else 0)) ∧
    (move_attempted true false true false = true ↔ input_delta true false true false ≠ (0, 0)) ∧
    (((input_delta true false true false).1 ≠ 0 ∧ (input_delta true false true false).2 ≠ 0)
      ↔ ((true ≠ false) ∧ (true ≠ false))) ∧
    ((true ≠ false) → (true ≠ false) → move_attempted true false true false = true) :=
  claim8_input_characterization true false true false

theorem mem_scanOrder (cols rows : Nat) (p : Pos) :
    p ∈ scanOrder cols rows ↔ inBounds cols rows p.1 p.2 := by
  rw [scanOrder, List.mem_flatMap]
  constructor
  · rintro ⟨x, hx, hp⟩
    rw [List.mem_map] at hp
    obtain ⟨y, hy, rfl⟩ := hp
    rw [List.mem_range] at hx hy
    refine ⟨?_, ?_, ?_, ?_⟩
    · show (0 : Int) ≤ (x : Int)
      omega
    · show (x : Int) < (cols : Int)
      exact_mod_cast hx
    · show (0 : Int) ≤ (y : Int)
      omega
    · show (y : Int) < (rows : Int)
      exact_mod_cast hy
  · intro h
    obtain ⟨h1, h2, h3, h4⟩ := h
    refine ⟨p.1.toNat, ?_, ?_⟩
    · rw [List.mem_range]
      omega
    · rw [List.mem_map]
      refine ⟨p.2.toNat, ?_, ?_⟩
      · rw [List.mem_range]
        omega
      · rw [Int.toNat_of_nonneg h1, Int.toNat_of_nonneg h3]

theorem nodup_scanOrder (cols rows : Nat) : (scanOrder cols rows).Nodup := by
  rw [scanOrder, List.nodup_flatMap]
  constructor
  · intro x _
    refine List.Nodup.map ?_ (List.nodup_range rows)
    intro a b hab
    simpa using hab
  · refine List.Pairwise.imp ?_ (List.pairwise_lt_range cols)
    intro a b hab p hp hq
    dsimp only [Function.onFun] at hp hq
    rw [List.mem_map] at hp hq
    obtain ⟨y1, _, e1⟩ := hp
    obtain ⟨y2, _, e2⟩ := hq
    have h12 := e1.trans e2.symm
    simp only [Prod.ext_iff, Nat.cast_inj] at h12
    omega

theorem mem_floor_points (cols rows : Nat) (g : Grid) (p : Pos) :
    p ∈ floor_points cols rows g ↔ inBounds cols rows p.1 p.2 ∧ g p.1 p.2 = 0 := by
  simp [floor_points, List.mem_filter, mem_scanOrder]

theorem nodup_floor_points (cols rows : Nat) (g : Grid) : (floor_points cols rows g).Nodup :=
  List.Nodup.filter _ (nodup_scanOrder cols rows)

/-- C9: with no floor cell at all, random floor point selection returns the
grid center (cols / 2, rows / 2) instead of failing; with floor cells
present, the drawn index selects from the duplicate-free enumeration of
exactly the in-bounds floor cells (so a uniform index draw selects a uniform
floor cell). -/
theorem claim9_get_random_floor_point (cols rows : Nat) (g : Grid) :
    (floor_points cols rows g = [] →
      ∀ r, get_random_floor_point cols rows g r
        = (((cols / 2 : Nat) : Int), ((rows / 2 : Nat) : Int))) ∧
    (∀ (r : Nat) (h : r < (floor_points cols rows g).length),
      get_random_floor_point cols rows g r = (floor_points cols rows g).get ⟨r, h⟩) ∧
    (floor_points cols rows g).Nodup ∧
    (∀ p : Pos, p ∈ floor_points cols rows g ↔
      inBounds cols rows p.1 p.2 ∧ g p.1 p.2 = 0) := by
  refine ⟨?_, ?_, nodup_floor_points cols rows g, mem_floor_points cols rows g⟩
  · intro he r
    simp only [get_random_floor_point, he]
    simp
  · intro r h
    have hne : (floor_points cols rows g).isEmpty = false := by
      rw [List.isEmpty_eq_false]
      exact List.length_pos.mp (Nat.lt_of_le_of_lt (Nat.zero_le r) h)
    simp only [get_random_floor_point, hne, Bool.false_eq_true, if_false]
    rw [List.getD_eq_getElem _ _ h, List.get_eq_getElem]

/-- Witness for C9: on a 2-by-2 grid whose only floor cell is (1, 1), draw 0
returns (1, 1); on an all-wall grid the center (1, 1) is returned. -/
theorem claim9_witness :
    get_random_floor_point 2 2 (fun i j => if i = 1 ∧ j = 1 then 0 else 1) 0
      = ((1 : Int), (1 : Int)) ∧
    get_random_floor_point 2 2 (fun _ _ => 1) 0 = ((1 : Int), (1 : Int)) := by
  constructor
  · rw [(claim9_get_random_floor_point 2 2 (fun i j => if i = 1 ∧ j = 1 then 0 else 1)).2.1
      0 (by decide)]
    decide
  · rw [(claim9_get_random_floor_point 2 2 (fun _ _ => 1)).1 (by decide) 0]
    decide

theorem collision_scan_some_spec :
    ∀ (es : List Entity) (k si : Nat) (nx ny : Int) (j : Nat),
      collision_scan es k si nx ny = some j →
      ∃ (m : Nat) (hm : m < es.length), j = k + m ∧ j ≠ si ∧
        (es.get ⟨m, hm⟩).x = nx ∧ (es.get ⟨m, hm⟩).y = ny := by
  intro es
  induction es with
  | nil =>
    intro k si nx ny j h
    simp [collision_scan] at h
  | cons e es ih =>
    intro k si nx ny j h
    simp only [collision_scan] at h
    by_cases hc : k ≠ si ∧ e.x = nx ∧ e.y = ny
    · rw [if_pos hc] at h
      obtain rfl : k = j := by injection h
      exact ⟨0, by simp, by omega, hc.1, hc.2.1, hc.2.2⟩
    · rw [if_neg hc] at h
      obtain ⟨m, hm, h1, h2, h3, h4⟩ := ih (k + 1) si nx ny j h
      refine ⟨m + 1, by simpa using hm, by omega, h2, ?_, ?_⟩
      · simpa using h3
      · simpa using h4

theorem collision_scan_none_spec :
    ∀ (es : List Entity) (k si : Nat) (nx ny : Int),
      collision_scan es k si nx ny = none ↔
      ∀ (m : Nat) (hm : m < es.length),
        k + m = si ∨ ¬((es.get ⟨m, hm⟩).x = nx ∧ (es.get ⟨m, hm⟩).y = ny) := by
  intro es
  induction es with
  | nil =>
    intro k si nx ny
    simp [collision_scan]
  | cons e es ih =>
    intro k si nx ny
    simp only [collision_scan]
    by_cases hc : k ≠ si ∧ e.x = nx ∧ e.y = ny
    · rw [if_pos hc]
      constructor
      · intro h
        exact absurd h (by simp)
      · intro h
        have h0 := h 0 (by simp)
        rcases h0 with h0 | h0
        · exact absurd (by omega : k = si) hc.1
        · exact (h0 ⟨hc.2.1, hc.2.2⟩).elim
    · rw [if_neg hc, ih (k + 1) si nx ny]
      constructor
      · intro h m hm
        cases m with
        | zero =>
          simp only [List.get]
          by_cases hk : k = si
          · exact Or.inl (by omega)
          · right
            intro hxy
            exact hc ⟨hk, hxy.1, hxy.2⟩
        | succ m =>
          have := h m (by simpa using hm)
          rcases this with h' | h'
          · exact Or.inl (by omega)
          · right
            simpa using h'
      · intro h m hm
        have := h (m + 1) (by simpa using hm)
        rcases this with h' | h'
        · exact Or.inl (by omega)
        · right
          simpa using h'

/-- C4 counterexample: a goblin with hp 0 (dead but not yet removed by the
cleanup pass) occupies the destination (2, 1); the destination is in bounds
and is a plain floor cell, yet try_move returns a collision with that dead
entity instead of moving.  The claim that only a distinct live entity
produces Collided (and that otherwise the move succeeds) is therefore false:
liveness is never checked by the roster scan. -/
theorem claim4_counterexample :
    ((⟨2, 1, 0, 10, 12, 1⟩ : Entity).hp ≤ 0) ∧
    inBounds 5 5 (1 + 1) (1 + 0) ∧
    (fun i j => if i = 0 ∨ i = 4 ∨ j = 0 ∨ j = 4 then 1 else 0 : Grid) (1 + 1) (1 + 0) = 0 ∧
    (try_move 5 5 ⟨1, 1, 30, 30, 14, 3⟩ 1 0
      (fun i j => if i = 0 ∨ i = 4 ∨ j = 0 ∨ j = 4 then 1 else 0)
      [⟨2, 1, 0, 10, 12, 1⟩, ⟨1, 1, 30, 30, 14, 3⟩] 1).1 = MoveResult.collided 0 ∧
    (try_move 5 5 ⟨1, 1, 30, 30, 14, 3⟩ 1 0
      (fun i j => if i = 0 ∨ i = 4 ∨ j = 0 ∨ j = 4 then 1 else 0)
      [⟨2, 1, 0, 10, 12, 1⟩, ⟨1, 1, 30, 30, 14, 3⟩] 1).1 ≠ MoveResult.moved := by
  decide

/-- C4 amended: movement resolution evaluates the fixed priority order of
the claim, except that the collision case fires for any distinct entity of
the roster standing at the destination, whether alive or dead (liveness is
not checked); Collided names the first such entity in roster order, and in
every Blocked, UsedStairs and Collided outcome the position of the acting
entity is unchanged. -/
theorem claim4_try_move_priority (cols rows : Nat) (e : Entity) (dx dy : Int) (g : Grid)
    (entities : List Entity) (si : Nat) :
    (¬ inBounds cols rows (e.x + dx) (e.y + dy) →
      try_move cols rows e dx dy g entities si = (.blocked, e)) ∧
    (inBounds cols rows (e.x + dx) (e.y + dy) → g (e.x + dx) (e.y + dy) = 1 →
      try_move cols rows e dx dy g entities si = (.blocked, e)) ∧
    (inBounds cols rows (e.x + dx) (e.y + dy) → g (e.x + dx) (e.y + dy) ≠ 1 →
      g (e.x + dx) (e.y + dy) = 2 →
      try_move cols rows e dx dy g entities si = (.stairsDown, e)) ∧
    (inBounds cols rows (e.x + dx) (e.y + dy) → g (e.x + dx) (e.y + dy) ≠ 1 →
      g (e.x + dx) (e.y + dy) ≠ 2 → g (e.x + dx) (e.y + dy) = 3 →
      try_move cols rows e dx dy g entities si = (.stairsUp, e)) ∧
    (∀ k : Nat, inBounds cols rows (e.x + dx) (e.y + dy) → g (e.x + dx) (e.y + dy) ≠ 1 →
      g (e.x + dx) (e.y + dy) ≠ 2 → g (e.x + dx) (e.y + dy) ≠ 3 →
      collision_scan entities 0 si (e.x + dx) (e.y + dy) = some k →
      try_move cols rows e dx dy g entities si = (.collided k, e) ∧ k ≠ si ∧
      ∃ hk : k < entities.length, (entities.get ⟨k, hk⟩).x = e.x + dx ∧
        (entities.get ⟨k, hk⟩).y = e.y + dy) ∧
    (inBounds cols rows (e.x + dx) (e.y + dy) → g (e.x + dx) (e.y + dy) ≠ 1 →
      g (e.x + dx) (e.y + dy) ≠ 2 → g (e.x + dx) (e.y + dy) ≠ 3 →
      collision_scan entities 0 si (e.x + dx) (e.y + dy) = none →
      try_move cols rows e dx dy g entities si
        = (.moved, { e with x := e.x + dx, y := e.y + dy })) ∧
    (collision_scan entities 0 si (e.x + dx) (e.y + dy) = none ↔
      ∀ (m : Nat) (hm : m < entities.length), m = si ∨
        ¬((entities.get ⟨m, hm⟩).x = e.x + dx ∧ (entities.get ⟨m, hm⟩).y = e.y + dy)) ∧
    ((try_move cols rows e dx dy g entities si).1 ≠ .moved →
      (try_move cols rows e dx dy g entities si).2 = e) := by
  refine ⟨?_, ?_, ?_, ?_, ?_, ?_, ?_, ?_⟩
  · intro h
    simp [try_move, h]
  · intro h1 h2
    simp [try_move, h1, h2]
  · intro h1 h2 h3
    simp [try_move, h1, h2, h3]
  · intro h1 h2 h3 h4
    simp [try_move, h1, h2, h3, h4]
  · intro k h1 h2 h3 h4 h5
    refine ⟨by simp [try_move, h1, h2, h3, h4, h5], ?_⟩
    obtain ⟨m, hm, hj, hne, hx, hy⟩ := collision_scan_some_spec entities 0 si _ _ k h5
    obtain rfl : k = m := by omega
    exact ⟨hne, hm, hx, hy⟩
  · intro h1 h2 h3 h4 h5
    simp [try_move, h1, h2, h3, h4, h5]
  · rw [collision_scan_none_spec entities 0 si (e.x + dx) (e.y + dy)]
    constructor
    · intro h m hm
      have := h m hm
      simpa using this
    · intro h m hm
      have := h m hm
      simpa using this
  · intro h
    by_cases h1 : inBounds cols rows (e.x + dx) (e.y + dy)
    · by_cases h2 : g (e.x + dx) (e.y + dy) = 1
      · simp [try_move, h1, h2]
      · by_cases h3 : g (e.x + dx) (e.y + dy) = 2
        · simp [try_move, h1, h2, h3]
        · by_cases h4 : g (e.x + dx) (e.y + dy) = 3
          · simp [try_move, h1, h2, h3, h4]
          · cases h5 : collision_scan entities 0 si (e.x + dx) (e.y + dy) with
            | none =>
              exact absurd (by simp [try_move, h1, h2, h3, h4, h5]) h
            | some k =>
              simp [try_move, h1, h2, h3, h4, h5]
    · simp [try_move, h1]

/-- Witness for C4 (amended): stepping off the left edge of the map is
Blocked and leaves the player in place. -/
theorem claim4_witness :
    try_move 3 3 ⟨0, 0, 30, 30, 14, 3⟩ (-1) 0 (fun _ _ => 0) [] 0
      = (MoveResult.blocked, ⟨0, 0, 30, 30, 14, 3⟩) :=
  (claim4_try_move_priority 3 3 ⟨0, 0, 30, 30, 14, 3⟩ (-1) 0 (fun _ _ => 0) [] 0).1 (by decide)

/-- C7 counterexample: the first creation of depth 1 (the initial level
built in main) populates 10 goblins with the plain defaults hp 10 and
strength 1, not the claimed base + 2 x depth = 12 monsters with hp
base + depth = 11: the documented scaling is applied only on the
deeper-level creation path. -/
theorem claim7_counterexample :
    (level1_enemies (fun _ => ((1 : Int), (1 : Int)))).length = 10 ∧
    (level1_enemies (fun _ => ((1 : Int), (1 : Int)))).length ≠ 10 + 2 * 1 ∧
    (∀ e ∈ level1_enemies (fun _ => ((1 : Int), (1 : Int))), e.hp = 10 ∧ e.strength = 1) ∧
    ((10 : Int) ≠ ((10 + 1 : Nat) : Int)) := by
  decide

/-- C7 amended: the first creation of depth 1 populates 10 monsters with the
default stats hp 10 and strength 1; the first creation of every deeper depth
d (reached by descending, so d >= 2) populates 10 + 2d monsters, each with
hp 10 + d and strength 1 + d / 3 (integer division). -/
theorem claim7_roster_scaling (d : Nat) (pos pos1 : Nat → Pos) :
    (level1_enemies pos1).length = 10 ∧
    (∀ e ∈ level1_enemies pos1, e.hp = 10 ∧ e.maxHp = 10 ∧ e.strength = 1) ∧
    (deeper_enemies d pos).length = 10 + d * 2 ∧
    (∀ e ∈ deeper_enemies d pos,
      e.hp = ((10 + d : Nat) : Int) ∧ e.maxHp = ((10 + d : Nat) : Int) ∧
      e.strength = ((1 + d / 3 : Nat) : Int)) := by
  refine ⟨by simp [level1_enemies], ?_, by simp [deeper_enemies], ?_⟩
  · intro e he
    simp only [level1_enemies, List.mem_map] at he
    obtain ⟨i, _, rfl⟩ := he
    exact ⟨rfl, rfl, rfl⟩
  · intro e he
    simp only [deeper_enemies, List.mem_map] at he
    obtain ⟨i, _, rfl⟩ := he
    exact ⟨rfl, rfl, rfl⟩

/-- Witness for C7 (amended) at depth 2 with a constant position stream. -/
theorem claim7_witness :
    (level1_enemies (fun _ => ((1 : Int), (1 : Int)))).length = 10 ∧
    (deeper_enemies 2 (fun _ => ((1 : Int), (1 : Int)))).length = 10 + 2 * 2 ∧
    ((⟨1, 1, 12, 12, 12, 1⟩ : Entity).hp = ((10 + 2 : Nat) : Int)) := by
  have h := claim7_roster_scaling 2 (fun _ => ((1 : Int), (1 : Int)))
    (fun _ => ((1 : Int), (1 : Int)))
  refine ⟨h.1, by rw [h.2.2.1], ?_⟩
  exact (h.2.2.2 ⟨1, 1, 12, 12, 12, 1⟩ (by decide)).1

theorem applyEvent_preserves (s : GameState) (e : GEvent) (d : Nat) (L : LevelState)
    (h : s.levels d = some L) :
    ∃ L', (applyEvent s e).levels d = some L' ∧ L'.grid = L.grid ∧
      L'.upPos = L.upPos ∧ L'.downPos = L.downPos ∧ L.explored ⊆ L'.explored := by
  cases e with
  | explore v =>
    cases hs : s.levels s.depth with
    | none =>
      refine ⟨L, ?_, rfl, rfl, rfl, Finset.Subset.refl _⟩
      simpa [applyEvent, hs] using h
    | some lvl =>
      by_cases hd : d = s.depth
      · subst hd
        rw [hs] at h
        obtain rfl : lvl = L := by injection h
        refine ⟨{ lvl with explored := lvl.explored ∪ v }, ?_, rfl, rfl, rfl,
          Finset.subset_union_left⟩
        simp [applyEvent, hs]
      · refine ⟨L, ?_, rfl, rfl, rfl, Finset.Subset.refl _⟩
        simpa [applyEvent, hs, hd] using h
  | descend fresh =>
    cases hs : s.levels (s.depth + 1) with
    | some lvl =>
      refine ⟨L, ?_, rfl, rfl, rfl, Finset.Subset.refl _⟩
      simpa [applyEvent, hs] using h
    | none =>
      have hd : d ≠ s.depth + 1 := by
        intro hdd
        rw [hdd, hs] at h
        exact Option.noConfusion h
      refine ⟨L, ?_, rfl, rfl, rfl, Finset.Subset.refl _⟩
      simpa [applyEvent, hs, hd] using h
  | ascend =>
    by_cases hgt : 1 < s.depth
    · cases hs : s.levels (s.depth - 1) with
      | some lvl =>
        refine ⟨L, ?_, rfl, rfl, rfl, Finset.Subset.refl _⟩
        simpa [applyEvent, hgt, hs] using h
      | none =>
        refine ⟨L, ?_, rfl, rfl, rfl, Finset.Subset.refl _⟩
        simpa [applyEvent, hgt, hs] using h
    · refine ⟨L, ?_, rfl, rfl, rfl, Finset.Subset.refl _⟩
      simpa [applyEvent, hgt] using h

/-- C6: across any sequence of level transitions and exploration updates, a
stored depth keeps the identical grid and stair coordinates (levels are
never regenerated) and its explored set only grows, so on revisit it is a
superset of the departure snapshot; descending places the player at the
up-stairs of the destination level (the stored one when it exists, the
freshly generated one otherwise, which is also stored unchanged), and
ascending places the player at the down-stairs of the destination level. -/
theorem claim6_level_persistence (s : GameState) (es : List GEvent) (d : Nat)
    (L : LevelState) (fresh : LevelState) :
    (s.levels d = some L →
      ∃ L', (applyEvents s es).levels d = some L' ∧ L'.grid = L.grid ∧
        L'.upPos = L.upPos ∧ L'.downPos = L.downPos ∧ L.explored ⊆ L'.explored) ∧
    (∀ lvl, s.levels (s.depth + 1) = some lvl →
      (applyEvent s (.descend fresh)).playerX = lvl.upPos.1 ∧
      (applyEvent s (.descend fresh)).playerY = lvl.upPos.2 ∧
      (applyEvent s (.descend fresh)).depth = s.depth + 1) ∧
    (s.levels (s.depth + 1) = none →
      (applyEvent s (.descend fresh)).levels (s.depth + 1) = some fresh ∧
      (applyEvent s (.descend fresh)).playerX = fresh.upPos.1 ∧
      (applyEvent s (.descend fresh)).playerY = fresh.upPos.2) ∧
    (∀ lvl, 1 < s.depth → s.levels (s.depth - 1) = some lvl →
      (applyEvent s .ascend).playerX = lvl.downPos.1 ∧
      (applyEvent s .ascend).playerY = lvl.downPos.2 ∧
      (applyEvent s .ascend).depth = s.depth - 1) := by
  refine ⟨?_, ?_, ?_, ?_⟩
  · intro h
    induction es generalizing s L with
    | nil => exact ⟨L, h, rfl, rfl, rfl, Finset.Subset.refl _⟩
    | cons e es ih =>
      obtain ⟨L1, h1, hg1, hu1, hd1, he1⟩ := applyEvent_preserves s e d L h
      obtain ⟨L2, h2, hg2, hu2, hd2, he2⟩ := ih (applyEvent s e) L1 h1
      exact ⟨L2, h2, hg2.trans hg1, hu2.trans hu1, hd2.trans hd1, he1.trans he2⟩
  · intro lvl hs
    simp [applyEvent, hs]
  · intro hs
    simp [applyEvent, hs]
  · intro lvl hgt hs
    simp [applyEvent, hgt, hs]

/-- Witness for C6: a one-level store at depth 1; the ascend event leaves
depth 1 stored unchanged, and descending to the missing depth 2 stores the
fresh level and parks the player at its up-stairs. -/
theorem claim6_witness :
    (∃ L', (applyEvents
        ⟨fun d => if d = 1 then some ⟨fun _ _ => 1, ∅, [], (1, 1), (2, 2)⟩ else none,
          1, 1, 1⟩ [GEvent.ascend]).levels 1 = some L' ∧
      L'.grid = (fun _ _ => 1) ∧ L'.upPos = (1, 1) ∧ L'.downPos = (2, 2) ∧
      (∅ : Finset Pos) ⊆ L'.explored) ∧
    ((applyEvent
        ⟨fun d => if d = 1 then some ⟨fun _ _ => 1, ∅, [], (1, 1), (2, 2)⟩ else none,
          1, 1, 1⟩
        (.descend ⟨fun _ _ => 0, ∅, [], (3, 3), (4, 4)⟩)).levels 2
      = some ⟨fun _ _ => 0, ∅, [], (3, 3), (4, 4)⟩ ∧
     (applyEvent
        ⟨fun d => if d = 1 then some ⟨fun _ _ => 1, ∅, [], (1, 1), (2, 2)⟩ else none,
          1, 1, 1⟩
        (.descend ⟨fun _ _ => 0, ∅, [], (3, 3), (4, 4)⟩)).playerX = 3 ∧
     (applyEvent
        ⟨fun d => if d = 1 then some ⟨fun _ _ => 1, ∅, [], (1, 1), (2, 2)⟩ else none,
          1, 1, 1⟩
        (.descend ⟨fun _ _ => 0, ∅, [], (3, 3), (4, 4)⟩)).playerY = 3) := by
  have h := claim6_level_persistence
    ⟨fun d => if d = 1 then some ⟨fun _ _ => 1, ∅, [], (1, 1), (2, 2)⟩ else none, 1, 1, 1⟩
    [GEvent.ascend] 1 ⟨fun _ _ => 1, ∅, [], (1, 1), (2, 2)⟩
    ⟨fun _ _ => 0, ∅, [], (3, 3), (4, 4)⟩
  exact ⟨h.1 (by simp), h.2.2.1 (by simp)⟩

theorem try_move_moved_cases (cols rows : Nat) (e : Entity) (dx dy : Int) (g : Grid)
    (entities : List Entity) (si : Nat) :
    ((try_move cols rows e dx dy g entities si).1 = .moved →
      (try_move cols rows e dx dy g entities si).2.x = e.x + dx ∧
      (try_move cols rows e dx dy g entities si).2.y = e.y + dy ∧
      g (e.x + dx) (e.y + dy) ≠ 1 ∧ g (e.x + dx) (e.y + dy) ≠ 2 ∧
      g (e.x + dx) (e.y + dy) ≠ 3) ∧
    ((try_move cols rows e dx dy g entities si).1 ≠ .moved →
      (try_move cols rows e dx dy g entities si).2 = e) := by
  by_cases h1 : inBounds cols rows (e.x + dx) (e.y + dy)
  · by_cases h2 : g (e.x + dx) (e.y + dy) = 1
    · constructor
      · intro hm
        simp [try_move, h1, h2] at hm
      · intro _
        simp [try_move, h1, h2]
    · by_cases h3 : g (e.x + dx) (e.y + dy) = 2
      · constructor
        · intro hm
          simp [try_move, h1, h2, h3] at hm
        · intro _
          simp [try_move, h1, h2, h3]
      · by_cases h4 : g (e.x + dx) (e.y + dy) = 3
        · constructor
          · intro hm
            simp [try_move, h1, h2, h3, h4] at hm
          · intro _
            simp [try_move, h1, h2, h3, h4]
        · cases h5 : collision_scan entities 0 si (e.x + dx) (e.y + dy) with
          | some k =>
            constructor
            · intro hm
              simp [try_move, h1, h2, h3, h4, h5] at hm
            · intro _
              simp [try_move, h1, h2, h3, h4, h5]
          | none =>
            constructor
            · intro _
              simp [try_move, h1, h2, h3, h4, h5]
            · intro hm
              exact absurd (by simp [try_move, h1, h2, h3, h4, h5]) hm
  · constructor
    · intro hm
      simp [try_move, h1] at hm
    · intro _
      simp [try_move, h1]

/-- C10: no non-player entity can come to occupy a stairs cell.  Spawn draws
always land on floor cells (value 0, in particular never 2 or 3, so the
redraw guard of the deeper-level spawn loop against the stair coordinates
never even fires when floor cells exist); a goblin step that would land on
stairs resolves to a stairs outcome that Goblin.update ignores, leaving the
goblin in place; and one goblin update step preserves the off-stairs
invariant, since a goblin only ever moves onto a cell whose value is not a
wall and not a stairs value.  Only the player is repositioned by the stairs
transition logic. -/
theorem claim10_no_monster_on_stairs (cols rows : Nat) (g : Grid) (self player : Entity)
    (entities : List Entity) (si : Nat) (visible : Finset Pos) (choice : Nat) (r : Nat)
    (dx dy : Int) (up down : Pos) :
    (r < (floor_points cols rows g).length →
      g (get_random_floor_point cols rows g r).1 (get_random_floor_point cols rows g r).2
        = 0) ∧
    (r < (floor_points cols rows g).length → g up.1 up.2 = 3 → g down.1 down.2 = 2 →
      get_random_floor_point cols rows g r ≠ up ∧
      get_random_floor_point cols rows g r ≠ down) ∧
    ((try_move cols rows self dx dy g entities si).1 = .stairsDown ∨
      (try_move cols rows self dx dy g entities si).1 = .stairsUp →
      (try_move cols rows self dx dy g entities si).2 = self) ∧
    (g self.x self.y ≠ 2 → g self.x self.y ≠ 3 →
      g (goblin_update cols rows g self player entities si visible choice).x
        (goblin_update cols rows g self player entities si visible choice).y ≠ 2 ∧
      g (goblin_update cols rows g self player entities si visible choice).x
        (goblin_update cols rows g self player entities si visible choice).y ≠ 3) := by
  have hsel : r < (floor_points cols rows g).length →
      g (get_random_floor_point cols rows g r).1 (get_random_floor_point cols rows g r).2
        = 0 := by
    intro h
    have hne : (floor_points cols rows g).isEmpty = false := by
      rw [List.isEmpty_eq_false]
      exact List.length_pos.mp (Nat.lt_of_le_of_lt (Nat.zero_le r) h)
    have hsel : get_random_floor_point cols rows g r = (floor_points cols rows g).get ⟨r, h⟩ := by
      simp only [get_random_floor_point, hne, Bool.false_eq_true, if_false]
      rw [List.getD_eq_getElem _ _ h, List.get_eq_getElem]
    rw [hsel]
    exact ((mem_floor_points cols rows g _).mp (List.get_mem _ _ _)).2
  refine ⟨hsel, ?_, ?_, ?_⟩
  · intro h hup hdown
    have h0 := hsel h
    constructor
    · intro he
      rw [he] at h0
      rw [hup] at h0
      exact absurd h0 (by norm_num)
    · intro he
      rw [he] at h0
      rw [hdown] at h0
      exact absurd h0 (by norm_num)
  · intro hst
    rcases hst with hst | hst
    · exact (try_move_moved_cases cols rows self dx dy g entities si).2 (by simp [hst])
    · exact (try_move_moved_cases cols rows self dx dy g entities si).2 (by simp [hst])
  · intro h2 h3
    unfold goblin_update
    by_cases hdead : self.hp ≤ 0
    · simp only [if_pos hdead]
      exact ⟨h2, h3⟩
    · simp only [if_neg hdead]
      by_cases hz : (goblin_delta self player visible choice).1 = 0 ∧
          (goblin_delta self player visible choice).2 = 0
      · simp only [if_pos hz]
        exact ⟨h2, h3⟩
      · simp only [if_neg hz]
        set dd := goblin_delta self player visible choice with hdd
        have hc := try_move_moved_cases cols rows self dd.1 dd.2 g entities si
        by_cases hm : (try_move cols rows self dd.1 dd.2 g entities si).1 = .moved
        · obtain ⟨hx, hy, _, hn2, hn3⟩ := hc.1 hm
          rw [hx, hy]
          exact ⟨hn2, hn3⟩
        · rw [hc.2 hm]
          exact ⟨h2, h3⟩

/-- Witness for C10 on a 5-by-5 grid with a down-stairs at (2, 2) and an
up-stairs at (3, 3): the first floor draw lands on floor and differs from
both stair positions, a goblin stepping onto the stairs stays in place, and
one wandering goblin update keeps the goblin off the stairs. -/
theorem claim10_witness :
    ((fun i j => if i = 2 ∧ j = 2 then 2 else if i = 3 ∧ j = 3 then 3 else 0 : Grid)
      (get_random_floor_point 5 5
        (fun i j => if i = 2 ∧ j = 2 then 2 else if i = 3 ∧ j = 3 then 3 else 0) 0).1
      (get_random_floor_point 5 5
        (fun i j => if i = 2 ∧ j = 2 then 2 else if i = 3 ∧ j = 3 then 3 else 0) 0).2
      = 0) ∧
    (get_random_floor_point 5 5
        (fun i j => if i = 2 ∧ j = 2 then 2 else if i = 3 ∧ j = 3 then 3 else 0) 0
      ≠ ((3 : Int), (3 : Int)) ∧
     get_random_floor_point 5 5
        (fun i j => if i = 2 ∧ j = 2 then 2 else if i = 3 ∧ j = 3 then 3 else 0) 0
      ≠ ((2 : Int), (2 : Int))) ∧
    ((try_move 5 5 ⟨2, 1, 10, 10, 12, 1⟩ 0 1
        (fun i j => if i = 2 ∧ j = 2 then 2 else if i = 3 ∧ j = 3 then 3 else 0)
        [⟨2, 1, 10, 10, 12, 1⟩] 0).2 = ⟨2, 1, 10, 10, 12, 1⟩) ∧
    ((fun i j => if i = 2 ∧ j = 2 then 2 else if i = 3 ∧ j = 3 then 3 else 0 : Grid)
        (goblin_update 5 5
          (fun i j => if i = 2 ∧ j = 2 then 2 else if i = 3 ∧ j = 3 then 3 else 0)
          ⟨2, 1, 10, 10, 12, 1⟩ ⟨4, 4, 30, 30, 14, 3⟩ [⟨2, 1, 10, 10, 12, 1⟩] 0 ∅ 0).x
        (goblin_update 5 5
          (fun i j => if i = 2 ∧ j = 2 then 2 else if i = 3 ∧ j = 3 then 3 else 0)
          ⟨2, 1, 10, 10, 12, 1⟩ ⟨4, 4, 30, 30, 14, 3⟩ [⟨2, 1, 10, 10, 12, 1⟩] 0 ∅ 0).y ≠ 2 ∧
     (fun i j => if i = 2 ∧ j = 2 then 2 else if i = 3 ∧ j = 3 then 3 else 0 : Grid)
        (goblin_update 5 5
          (fun i j => if i = 2 ∧ j = 2 then 2 else if i = 3 ∧ j = 3 then 3 else 0)
          ⟨2, 1, 10, 10, 12, 1⟩ ⟨4, 4, 30, 30, 14, 3⟩ [⟨2, 1, 10, 10, 12, 1⟩] 0 ∅ 0).x
        (goblin_update 5 5
          (fun i j => if i = 2 ∧ j = 2 then 2 else if i = 3 ∧ j = 3 then 3 else 0)
          ⟨2, 1, 10, 10, 12, 1⟩ ⟨4, 4, 30, 30, 14, 3⟩ [⟨2, 1, 10, 10, 12, 1⟩] 0 ∅ 0).y ≠ 3) := by
  have h := claim10_no_monster_on_stairs 5 5
    (fun i j => if i = 2 ∧ j = 2 then 2 else if i = 3 ∧ j = 3 then 3 else 0)
    ⟨2, 1, 10, 10, 12, 1⟩ ⟨4, 4, 30, 30, 14, 3⟩ [⟨2, 1, 10, 10, 12, 1⟩] 0 ∅ 0 0 0 1
    (3, 3) (2, 2)
  refine ⟨h.1 (by decide), h.2.1 (by decide) (by decide) (by decide), ?_, ?_⟩
  · exact h.2.2.1 (by decide)
  · exact h.2.2.2 (by decide) (by decide)

theorem rayPos_succ (x y dx dy : ℚ) (m : Nat) :
    rayPos (x + dx) (y + dy) dx dy m = rayPos x y dx dy (m + 1) := by
  unfold rayPos
  have h1 : x + dx + (m : ℚ) * dx = x + ((m : Nat) + 1 : ℚ) * dx := by ring
  have h2 : y + dy + (m : ℚ) * dy = y + ((m : Nat) + 1 : ℚ) * dy := by ring
  rw [h1, h2]
  push_cast
  norm_num

theorem rayPos_one (x y dx dy : ℚ) :
    rayPos x y dx dy 1 = (round (x + dx), round (y + dy)) := by
  unfold rayPos
  norm_num

theorem rayWalk_mem (g : Grid) (dx dy : ℚ) :
    ∀ (n : Nat) (x y : ℚ) (p : Pos),
      p ∈ rayWalk g x y dx dy n ↔
      ∃ m : Nat, 1 ≤ m ∧ m ≤ n ∧ p = rayPos x y dx dy m ∧
        inBounds MAP_WIDTH MAP_HEIGHT p.1 p.2 ∧
        ∀ m' : Nat, 1 ≤ m' → m' < m →
          inBounds MAP_WIDTH MAP_HEIGHT (rayPos x y dx dy m').1 (rayPos x y dx dy m').2 ∧
          g (rayPos x y dx dy m').1 (rayPos x y dx dy m').2 ≠ 1 := by
  intro n
  induction n with
  | zero =>
    intro x y p
    constructor
    · intro h
      exact absurd h (List.not_mem_nil p)
    · rintro ⟨m, h1, h2, _⟩
      omega
  | succ n ih =>
    intro x y p
    simp only [rayWalk]
    by_cases hb : inBounds MAP_WIDTH MAP_HEIGHT (round (x + dx)) (round (y + dy))
    · rw [if_neg (not_not_intro hb)]
      by_cases hw : g (round (x + dx)) (round (y + dy)) = 1
      · rw [if_pos hw]
        constructor
        · intro hp
          have hp1 : p = (round (x + dx), round (y + dy)) := by simpa using hp
          refine ⟨1, le_refl 1, by omega, by rw [hp1, rayPos_one], ?_, ?_⟩
          · rw [hp1]
            exact hb
          · intro m' hm1 hm2
            omega
        · rintro ⟨m, h1, h2, hp, hpb, hchain⟩
          rcases Nat.lt_or_ge m 2 with hm | hm
          · obtain rfl : m = 1 := by omega
            rw [hp, rayPos_one]
            simp
          · have hc := hchain 1 (le_refl 1) (by omega)
            rw [rayPos_one] at hc
            exact absurd hw hc.2
      · rw [if_neg hw]
        constructor
        · intro hp
          rcases List.mem_cons.mp hp with hp1 | hp1
          · refine ⟨1, le_refl 1, by omega, by rw [hp1, rayPos_one], ?_, ?_⟩
            · rw [hp1]
              exact hb
            · intro m' hm1 hm2
              omega
          · obtain ⟨m, h1, h2, hpm, hpb, hchain⟩ := (ih (x + dx) (y + dy) p).mp hp1
            rw [rayPos_succ] at hpm
            refine ⟨m + 1, by omega, by omega, hpm, hpb, ?_⟩
            intro m' hm1 hm2
            rcases Nat.lt_or_ge m' 2 with hm' | hm'
            · obtain rfl : m' = 1 := by omega
              rw [rayPos_one]
              exact ⟨hb, hw⟩
            · have := hchain (m' - 1) (by omega) (by omega)
              rw [rayPos_succ] at this
              have hm'' : m' - 1 + 1 = m' := by omega
              rw [hm''] at this
              exact this
        · rintro ⟨m, h1, h2, hpm, hpb, hchain⟩
          rcases Nat.lt_or_ge m 2 with hm | hm
          · obtain rfl : m = 1 := by omega
            rw [hpm, rayPos_one]
            exact List.mem_cons_self _ _
          · refine List.mem_cons_of_mem _ ((ih (x + dx) (y + dy) p).mpr ?_)
            refine ⟨m - 1, by omega, by omega, ?_, hpb, ?_⟩
            · rw [rayPos_succ]
              have hm'' : m - 1 + 1 = m := by omega
              rw [hm'']
              exact hpm
            · intro m' hm1 hm2
              have := hchain (m' + 1) (by omega) (by omega)
              rw [← rayPos_succ] at this
              exact this
    · rw [if_pos hb]
      constructor
      · intro hp
        exact absurd hp (List.not_mem_nil p)
      · rintro ⟨m, h1, h2, hpm, hpb, hchain⟩
        rcases Nat.lt_or_ge m 2 with hm | hm
        · obtain rfl : m = 1 := by omega
          rw [hpm, rayPos_one] at hpb
          exact absurd hpb hb
        · have hc := hchain 1 (le_refl 1) (by omega)
          rw [rayPos_one] at hc
          exact absurd hc.1 hb

theorem mem_foldr_insert : ∀ (l : List Pos) (s : Finset Pos) (p : Pos),
    p ∈ l.foldr insert s ↔ p ∈ l ∨ p ∈ s := by
  intro l
  induction l with
  | nil => intro s p; simp
  | cons a l ih =>
    intro s p
    simp [List.foldr_cons, Finset.mem_insert, ih, or_assoc]

theorem mem_ray_union (g : Grid) (ox oy : Int) (radius : Nat) (dir : Nat → ℚ × ℚ) :
    ∀ (ks : List Nat) (s : Finset Pos) (p : Pos),
      p ∈ ks.foldr
        (fun k s =>
          (rayWalk g (ox : ℚ) (oy : ℚ) (dir (3 * k)).1 (dir (3 * k)).2 (radius * 2)).foldr
            insert s) s ↔
      (∃ k ∈ ks, p ∈ rayWalk g (ox : ℚ) (oy : ℚ) (dir (3 * k)).1 (dir (3 * k)).2 (radius * 2))
        ∨ p ∈ s := by
  intro ks
  induction ks with
  | nil => intro s p; simp
  | cons k ks ih =>
    intro s p
    rw [List.foldr_cons, mem_foldr_insert, ih]
    constructor
    · rintro (h | h | h)
      · exact Or.inl ⟨k, List.mem_cons_self k ks, h⟩
      · obtain ⟨k', hk', hp⟩ := h
        exact Or.inl ⟨k', List.mem_cons_of_mem k hk', hp⟩
      · exact Or.inr h
    · rintro (⟨k', hk', hp⟩ | h)
      · rcases List.mem_cons.mp hk' with rfl | hk'
        · exact Or.inl hp
        · exact Or.inr (Or.inl ⟨k', hk', hp⟩)
      · exact Or.inr (Or.inr h)

/-- C5: compute_fov always contains the origin, and membership is exactly:
the origin, or a position reached at some step m with 1 <= m <= 2 * radius
along one of the 120 cast rays (angles 0, 3, ..., 357 degrees via the
injected direction table) such that every strictly earlier step of that ray
is in bounds and not a Wall and the position itself is in bounds.  Hence
every traversed cell up to and including the first Wall cell is added, no
cell strictly beyond that wall is added along that ray, a ray stops
immediately on leaving the map bounds, and every returned position is within
2 * radius ray-steps of the origin along some cast ray. -/
theorem claim5_compute_fov (ox oy : Int) (radius : Nat) (g : Grid) (dir : Nat → ℚ × ℚ) :
    ((ox, oy) : Pos) ∈ compute_fov ox oy radius g dir ∧
    (∀ p : Pos, p ∈ compute_fov ox oy radius g dir ↔
      (p = (ox, oy) ∨
        ∃ k : Nat, k < 120 ∧ ∃ m : Nat, 1 ≤ m ∧ m ≤ radius * 2 ∧
          p = rayPos (ox : ℚ) (oy : ℚ) (dir (3 * k)).1 (dir (3 * k)).2 m ∧
          inBounds MAP_WIDTH MAP_HEIGHT p.1 p.2 ∧
          ∀ m' : Nat, 1 ≤ m' → m' < m →
            inBounds MAP_WIDTH MAP_HEIGHT
              (rayPos (ox : ℚ) (oy : ℚ) (dir (3 * k)).1 (dir (3 * k)).2 m').1
              (rayPos (ox : ℚ) (oy : ℚ) (dir (3 * k)).1 (dir (3 * k)).2 m').2 ∧
            g (rayPos (ox : ℚ) (oy : ℚ) (dir (3 * k)).1 (dir (3 * k)).2 m').1
              (rayPos (ox : ℚ) (oy : ℚ) (dir (3 * k)).1 (dir (3 * k)).2 m').2 ≠ 1)) := by
  constructor
  · exact Finset.mem_insert_self _ _
  · intro p
    unfold compute_fov
    rw [Finset.mem_insert, mem_ray_union]
    constructor
    · rintro (h | ⟨k, hk, hp⟩ | h)
      · exact Or.inl h
      · rw [List.mem_range] at hk
        obtain ⟨m, h1, h2, h3, h4, h5⟩ :=
          (rayWalk_mem g (dir (3 * k)).1 (dir (3 * k)).2 (radius * 2) (ox : ℚ) (oy : ℚ) p).mp hp
        exact Or.inr ⟨k, hk, m, h1, h2, h3, h4, h5⟩
      · exact absurd h (Finset.not_mem_empty p)
    · rintro (h | ⟨k, hk, m, h1, h2, h3, h4, h5⟩)
      · exact Or.inl h
      · refine Or.inr (Or.inl ⟨k, List.mem_range.mpr hk, ?_⟩)
        exact (rayWalk_mem g (dir (3 * k)).1 (dir (3 * k)).2 (radius * 2) (ox : ℚ) (oy : ℚ) p).mpr
          ⟨m, h1, h2, h3, h4, h5⟩

/-- Witness for C5: an all-floor grid, radius 1, direction table constantly
(1, 0); the origin (5, 5) is visible and the first step (6, 5) of ray 0 is
visible. -/
theorem claim5_witness :
    (((5 : Int), (5 : Int)) : Pos) ∈ compute_fov 5 5 1 (fun _ _ => 0) (fun _ => (1, 0)) ∧
    (((6 : Int), (5 : Int)) : Pos) ∈ compute_fov 5 5 1 (fun _ _ => 0) (fun _ => (1, 0)) := by
  have h := claim5_compute_fov 5 5 1 (fun _ _ => 0) (fun _ => (1, 0))
  refine ⟨h.1, ?_⟩
  refine (h.2 (6, 5)).mpr (Or.inr ⟨0, by norm_num, 1, le_refl 1, by norm_num, ?_, by decide, ?_⟩)
  · show ((6 : Int), (5 : Int)) = ((round (((5 : Int) : ℚ) + (1 : ℚ) * (1 : ℚ)), round (((5 : Int) : ℚ) + (1 : ℚ) * (0 : ℚ))) : Pos)
    norm_num [round_eq]
  · intro m' h1 h2
    omega

theorem mem_allCells (cols rows : Nat) (p : Pos) :
    p ∈ allCells cols rows ↔ inBounds cols rows p.1 p.2 := by
  rw [allCells, Finset.mem_Icc, Prod.le_def, Prod.le_def]
  constructor
  · rintro ⟨⟨h1, h2⟩, h3, h4⟩
    exact ⟨h1, by omega, h2, by omega⟩
  · rintro ⟨h1, h2, h3, h4⟩
    exact ⟨⟨h1, h3⟩, by omega, by omega⟩

theorem nbrs4_symm (p q : Pos) : q ∈ nbrs4 p ↔ p ∈ nbrs4 q := by
  simp only [nbrs4, List.mem_cons, List.not_mem_nil, or_false, Prod.ext_iff]
  omega

theorem stepAdj_symm (cols rows : Nat) (g : Grid) (t : Nat) (p q : Pos)
    (hp1 : inBounds cols rows p.1 p.2) (hp2 : g p.1 p.2 = t)
    (h : stepAdj cols rows g t p q) : stepAdj cols rows g t q p :=
  ⟨(nbrs4_symm p q).mp h.1, hp1, hp2⟩

theorem reach_keeps_T (cols rows : Nat) (g : Grid) (t : Nat) (p q : Pos)
    (h : reach cols rows g t p q) :
    q = p ∨ (inBounds cols rows q.1 q.2 ∧ g q.1 q.2 = t) := by
  induction h with
  | refl => exact Or.inl rfl
  | tail _ hstep _ => exact Or.inr ⟨hstep.2.1, hstep.2.2⟩

theorem reach_symm (cols rows : Nat) (g : Grid) (t : Nat) (p q : Pos)
    (hp1 : inBounds cols rows p.1 p.2) (hp2 : g p.1 p.2 = t)
    (h : reach cols rows g t p q) : reach cols rows g t q p := by
  induction h with
  | refl => exact Relation.ReflTransGen.refl
  | tail hb hstep ih =>
    rename_i b c
    have hbT : inBounds cols rows b.1 b.2 ∧ g b.1 b.2 = t := by
      rcases reach_keeps_T cols rows g t p b hb with h' | h'
      · rw [h']
        exact ⟨hp1, hp2⟩
      · exact h'
    exact Relation.ReflTransGen.trans
      (Relation.ReflTransGen.single (stepAdj_symm cols rows g t b c hbT.1 hbT.2 hstep)) ih

theorem foldl_visitOne_sub (cols rows : Nat) (g : Grid) (t : Nat) :
    ∀ (l : List Pos) (acc : List Pos × Finset Pos),
      (l.foldl (visitOne cols rows g t) acc).2 ⊆ acc.2 := by
  intro l
  induction l with
  | nil => intro acc; exact fun x hx => hx
  | cons n l ih =>
    intro acc
    rw [List.foldl_cons]
    refine (ih _).trans ?_
    unfold visitOne
    split
    · exact Finset.erase_subset _ _
    · exact fun x hx => hx

theorem foldl_visitOne_set (cols rows : Nat) (g : Grid) (t : Nat) :
    ∀ (l : List Pos) (acc : List Pos × Finset Pos),
      (l.foldl (visitOne cols rows g t) acc).1.toFinset
        = acc.1.toFinset ∪ (acc.2 \ (l.foldl (visitOne cols rows g t) acc).2) := by
  intro l
  induction l with
  | nil =>
    intro acc
    simp
  | cons n l ih =>
    intro acc
    rw [List.foldl_cons, ih]
    unfold visitOne
    split
    · rename_i h
      have hsub := foldl_visitOne_sub cols rows g t l (acc.1 ++ [n], acc.2.erase n)
      ext p
      simp only [Finset.mem_union, List.toFinset_append, List.toFinset_cons,
        List.toFinset_nil, insert_emptyc_eq, Finset.mem_insert, Finset.mem_sdiff,
        Finset.mem_erase]
      constructor
      · rintro ((hp | hp) | hp)
        · exact Or.inl hp
        · have hpn : p = n := by simpa using hp
          subst hpn
          refine Or.inr ⟨h.2.2, fun hc => ?_⟩
          have := hsub hc
          simp at this
        · exact Or.inr ⟨hp.1.2, hp.2⟩
      · rintro (hp | hp)
        · exact Or.inl (Or.inl hp)
        · by_cases hpn : p = n
          · exact Or.inl (Or.inr (by simpa using hpn))
          · exact Or.inr ⟨⟨hpn, hp.1⟩, hp.2⟩
    · rfl

theorem foldl_visitOne_T (cols rows : Nat) (g : Grid) (t : Nat) :
    ∀ (l : List Pos) (acc : List Pos × Finset Pos) (p : Pos), p ∈ acc.2 →
      p ∉ (l.foldl (visitOne cols rows g t) acc).2 →
      inBounds cols rows p.1 p.2 ∧ g p.1 p.2 = t := by
  intro l
  induction l with
  | nil =>
    intro acc p hp hnp
    exact absurd hp hnp
  | cons n l ih =>
    intro acc p hp hnp
    rw [List.foldl_cons] at hnp
    by_cases hmem : p ∈ (visitOne cols rows g t acc n).2
    · exact ih _ p hmem hnp
    · unfold visitOne at hmem
      split at hmem
      · rename_i h
        by_cases hpn : p = n
        · rw [hpn]
          exact ⟨h.1, h.2.1⟩
        · exact absurd (Finset.mem_erase.mpr ⟨hpn, hp⟩) hmem
      · exact absurd hp hmem

theorem foldl_visitOne_closed (cols rows : Nat) (g : Grid) (t : Nat) :
    ∀ (l : List Pos) (acc : List Pos × Finset Pos) (q : Pos), q ∈ l →
      inBounds cols rows q.1 q.2 → g q.1 q.2 = t →
      q ∉ (l.foldl (visitOne cols rows g t) acc).2 := by
  intro l
  induction l with
  | nil =>
    intro acc q hq
    exact absurd hq (List.not_mem_nil q)
  | cons n l ih =>
    intro acc q hq hqb hqt
    rw [List.foldl_cons]
    rcases List.mem_cons.mp hq with rfl | hq
    · by_cases hmem : q ∈ acc.2
      · intro hc
        have : q ∉ (visitOne cols rows g t acc q).2 := by
          unfold visitOne
          rw [if_pos ⟨hqb, hqt, hmem⟩]
          simp
        exact this (foldl_visitOne_sub cols rows g t l _ hc)
      · intro hc
        have hsub := foldl_visitOne_sub cols rows g t l (visitOne cols rows g t acc q)
        have : q ∈ (visitOne cols rows g t acc q).2 := hsub hc
        unfold visitOne at this
        split at this
        · exact absurd this (by simp)
        · exact hmem this
    · exact ih _ q hq hqb hqt

theorem foldl_visitOne_new (cols rows : Nat) (g : Grid) (t : Nat) :
    ∀ (l : List Pos) (acc : List Pos × Finset Pos) (q : Pos),
      q ∈ (l.foldl (visitOne cols rows g t) acc).1 →
      q ∈ acc.1 ∨ (q ∈ l ∧ inBounds cols rows q.1 q.2 ∧ g q.1 q.2 = t) := by
  intro l
  induction l with
  | nil =>
    intro acc q hq
    exact Or.inl hq
  | cons n l ih =>
    intro acc q hq
    rw [List.foldl_cons] at hq
    rcases ih _ q hq with hq' | hq'
    · unfold visitOne at hq'
      split at hq'
      · rename_i h
        rcases List.mem_append.mp hq' with hq'' | hq''
        · exact Or.inl hq''
        · have : q = n := by simpa using hq''
          rw [this]
          exact Or.inr ⟨List.mem_cons_self n l, h.1, h.2.1⟩
      · exact Or.inl hq'
    · exact Or.inr ⟨List.mem_cons_of_mem n hq'.1, hq'.2⟩

theorem foldl_visitOne_nodup (cols rows : Nat) (g : Grid) (t : Nat) :
    ∀ (l : List Pos) (acc : List Pos × Finset Pos), acc.1.Nodup →
      (∀ p ∈ acc.1, p ∉ acc.2) →
      (l.foldl (visitOne cols rows g t) acc).1.Nodup ∧
      ∀ p ∈ (l.foldl (visitOne cols rows g t) acc).1,
        p ∉ (l.foldl (visitOne cols rows g t) acc).2 := by
  intro l
  induction l with
  | nil =>
    intro acc h1 h2
    exact ⟨h1, h2⟩
  | cons n l ih =>
    intro acc h1 h2
    rw [List.foldl_cons]
    refine ih _ ?_ ?_
    · unfold visitOne
      split
      · rename_i h
        rw [List.nodup_append]
        refine ⟨h1, List.nodup_singleton n, ?_⟩
        intro a ha han
        have han' : a = n := by simpa using han
        subst han'
        exact h2 a ha h.2.2
      · exact h1
    · unfold visitOne
      split
      · rename_i h
        intro p hp
        rcases List.mem_append.mp hp with hp' | hp'
        · exact fun hc => h2 p hp' (Finset.erase_subset _ _ hc)
        · have : p = n := by simpa using hp'
          rw [this]
          simp
      · exact h2

theorem bfs_sub (cols rows : Nat) (g : Grid) (t : Nat) :
    ∀ (tp reg : List Pos) (rem : Finset Pos), (bfs cols rows g t tp reg rem).2 ⊆ rem := by
  intro tp reg rem
  induction tp, reg, rem using bfs.induct cols rows g t
  case case1 reg rem => simp [bfs]
  case case2 c rest reg rem vn ih =>
    rw [bfs]
    refine ih.trans ?_
    simpa [visitNbrs] using foldl_visitOne_sub cols rows g t (nbrs4 c) ([], rem)

theorem bfs_set (cols rows : Nat) (g : Grid) (t : Nat) :
    ∀ (tp reg : List Pos) (rem : Finset Pos),
      (bfs cols rows g t tp reg rem).1.toFinset
        = reg.toFinset ∪ tp.toFinset ∪ (rem \ (bfs cols rows g t tp reg rem).2) := by
  intro tp reg rem
  induction tp, reg, rem using bfs.induct cols rows g t
  case case1 reg rem => simp [bfs]
  case case2 c rest reg rem vn ih =>
    rw [bfs]
    have hvset : vn.1.toFinset = rem \ vn.2 := by
      simpa [visitNbrs] using foldl_visitOne_set cols rows g t (nbrs4 c) ([], rem)
    have hvsub : vn.2 ⊆ rem := by
      simpa [visitNbrs] using foldl_visitOne_sub cols rows g t (nbrs4 c) ([], rem)
    have hosub : (bfs cols rows g t (rest ++ vn.1) (reg ++ [c]) vn.2).2 ⊆ vn.2 :=
      bfs_sub cols rows g t (rest ++ vn.1) (reg ++ [c]) vn.2
    rw [ih]
    ext p
    have hA : p ∈ vn.1 ↔ p ∈ rem ∧ p ∉ vn.2 := by
      rw [← List.mem_toFinset, hvset, Finset.mem_sdiff]
    have hB : p ∈ vn.2 → p ∈ rem := fun h => hvsub h
    have hC : p ∉ vn.2 → p ∉ (bfs cols rows g t (rest ++ vn.1) (reg ++ [c]) vn.2).2 :=
      fun h hc => h (hosub hc)
    simp only [List.toFinset_append, List.toFinset_cons, List.mem_toFinset,
      Finset.mem_union, Finset.mem_sdiff, Finset.mem_insert, List.mem_append,
      List.mem_cons, List.mem_singleton, List.not_mem_nil, or_false]
    tauto

theorem bfs_T (cols rows : Nat) (g : Grid) (t : Nat) :
    ∀ (tp reg : List Pos) (rem : Finset Pos) (p : Pos), p ∈ rem →
      p ∉ (bfs cols rows g t tp reg rem).2 →
      inBounds cols rows p.1 p.2 ∧ g p.1 p.2 = t := by
  intro tp reg rem
  induction tp, reg, rem using bfs.induct cols rows g t
  case case1 reg rem =>
    intro p hp hnp
    rw [bfs] at hnp
    exact absurd hp hnp
  case case2 c rest reg rem vn ih =>
    intro p hp hnp
    rw [bfs] at hnp
    by_cases hmem : p ∈ vn.2
    · exact ih p hmem hnp
    · exact foldl_visitOne_T cols rows g t (nbrs4 c) ([], rem) p hp hmem

theorem bfs_nodup (cols rows : Nat) (g : Grid) (t : Nat) :
    ∀ (tp reg : List Pos) (rem : Finset Pos), (reg ++ tp).Nodup →
      (∀ p ∈ reg ++ tp, p ∉ rem) → (bfs cols rows g t tp reg rem).1.Nodup := by
  intro tp reg rem
  induction tp, reg, rem using bfs.induct cols rows g t
  case case1 reg rem =>
    intro h1 _
    rw [bfs]
    simpa using h1
  case case2 c rest reg rem vn ih =>
    intro h1 h2
    rw [bfs]
    have hvfacts := foldl_visitOne_nodup cols rows g t (nbrs4 c) ([], rem)
      (List.nodup_nil) (by simp)
    have hvnodup : vn.1.Nodup := hvfacts.1
    have hvnein : ∀ p ∈ vn.1, p ∉ vn.2 := hvfacts.2
    have hvset : vn.1.toFinset = rem \ vn.2 := by
      simpa [visitNbrs] using foldl_visitOne_set cols rows g t (nbrs4 c) ([], rem)
    have hvsub : vn.2 ⊆ rem := by
      simpa [visitNbrs] using foldl_visitOne_sub cols rows g t (nbrs4 c) ([], rem)
    have hvrem : ∀ p ∈ vn.1, p ∈ rem := by
      intro p hp
      have : p ∈ vn.1.toFinset := List.mem_toFinset.mpr hp
      rw [hvset] at this
      exact (Finset.mem_sdiff.mp this).1
    refine ih ?_ ?_
    · have heq : (reg ++ [c]) ++ (rest ++ vn.1) = (reg ++ c :: rest) ++ vn.1 := by
        simp
      rw [heq, List.nodup_append]
      refine ⟨h1, hvnodup, ?_⟩
      intro a ha hav
      exact h2 a ha (hvrem a hav)
    · intro p hp
      have heq : (reg ++ [c]) ++ (rest ++ vn.1) = (reg ++ c :: rest) ++ vn.1 := by
        simp
      rw [heq] at hp
      rcases List.mem_append.mp hp with hp' | hp'
      · exact fun hc => h2 p hp' (hvsub hc)
      · exact hvnein p hp'

theorem bfs_closed (cols rows : Nat) (g : Grid) (t : Nat) :
    ∀ (tp reg : List Pos) (rem : Finset Pos),
      (∀ p ∈ reg, ∀ q, stepAdj cols rows g t p q → q ∉ rem) →
      ∀ p ∈ (bfs cols rows g t tp reg rem).1, ∀ q, stepAdj cols rows g t p q →
        q ∉ (bfs cols rows g t tp reg rem).2 := by
  intro tp reg rem
  induction tp, reg, rem using bfs.induct cols rows g t
  case case1 reg rem =>
    intro h p hp q hq
    rw [bfs] at hp ⊢
    exact h p hp q hq
  case case2 c rest reg rem vn ih =>
    intro h p hp q hq
    rw [bfs] at hp ⊢
    have hvsub : vn.2 ⊆ rem := by
      simpa [visitNbrs] using foldl_visitOne_sub cols rows g t (nbrs4 c) ([], rem)
    refine ih ?_ p hp q hq
    intro p' hp' q' hq'
    rcases List.mem_append.mp hp' with hp'' | hp''
    · exact fun hc => h p' hp'' q' hq' (hvsub hc)
    · have hpc : p' = c := by simpa using hp''
      rw [hpc] at hq'
      exact foldl_visitOne_closed cols rows g t (nbrs4 c) ([], rem) q' hq'.1 hq'.2.1 hq'.2.2

theorem bfs_reach (cols rows : Nat) (g : Grid) (t : Nat) :
    ∀ (tp reg : List Pos) (rem : Finset Pos) (c0 : Pos),
      (∀ p ∈ reg ++ tp, reach cols rows g t c0 p) →
      ∀ p ∈ (bfs cols rows g t tp reg rem).1, reach cols rows g t c0 p := by
  intro tp reg rem
  induction tp, reg, rem using bfs.induct cols rows g t
  case case1 reg rem =>
    intro c0 h p hp
    rw [bfs] at hp
    exact h p (List.mem_append.mpr (Or.inl hp))
  case case2 c rest reg rem vn ih =>
    intro c0 h p hp
    rw [bfs] at hp
    refine ih c0 ?_ p hp
    intro p' hp'
    have heq : (reg ++ [c]) ++ (rest ++ vn.1) = (reg ++ c :: rest) ++ vn.1 := by
      simp
    rw [heq] at hp'
    rcases List.mem_append.mp hp' with hp'' | hp''
    · exact h p' hp''
    · rcases foldl_visitOne_new cols rows g t (nbrs4 c) ([], rem) p' hp'' with hc | hc
      · exact absurd hc (List.not_mem_nil p')
      · have hcr : reach cols rows g t c0 c :=
          h c (by simp)
        exact Relation.ReflTransGen.tail hcr ⟨hc.1, hc.2.1, hc.2.2⟩

theorem regionsScan_spec (cols rows : Nat) (g : Grid) (t : Nat) :
    ∀ (cells : List Pos) (rem : Finset Pos) (acc : List (List Pos)),
      rem ⊆ allCells cols rows →
      (∀ p ∈ allCells cols rows, p ∉ rem → g p.1 p.2 = t) →
      (∀ reg ∈ acc, reg.Nodup ∧ reg ≠ [] ∧
        ∀ p ∈ reg, p ∈ allCells cols rows ∧ g p.1 p.2 = t ∧ p ∉ rem) →
      List.Pairwise (fun r1 r2 => ∀ p ∈ r1, p ∉ r2) acc →
      (∀ p ∈ allCells cols rows, p ∉ rem → ∃ reg ∈ acc, p ∈ reg) →
      (∀ reg ∈ acc, ∀ p ∈ reg, ∀ q, stepAdj cols rows g t p q → q ∈ reg) →
      (∀ reg ∈ acc, ∃ c0 ∈ reg, ∀ p ∈ reg, reach cols rows g t c0 p) →
      (∀ p ∈ allCells cols rows, g p.1 p.2 = t → p ∈ rem → p ∈ cells) →
      (∀ reg ∈ regionsScan cols rows g t cells rem acc, reg.Nodup ∧ reg ≠ [] ∧
        ∀ p ∈ reg, p ∈ allCells cols rows ∧ g p.1 p.2 = t) ∧
      List.Pairwise (fun r1 r2 => ∀ p ∈ r1, p ∉ r2)
        (regionsScan cols rows g t cells rem acc) ∧
      (∀ p ∈ allCells cols rows, g p.1 p.2 = t →
        ∃ reg ∈ regionsScan cols rows g t cells rem acc, p ∈ reg) ∧
      (∀ reg ∈ regionsScan cols rows g t cells rem acc, ∀ p ∈ reg, ∀ q,
        stepAdj cols rows g t p q → q ∈ reg) ∧
      (∀ reg ∈ regionsScan cols rows g t cells rem acc, ∃ c0 ∈ reg,
        ∀ p ∈ reg, reach cols rows g t c0 p) := by
  intro cells
  induction cells with
  | nil =>
    intro rem acc h1 h2 h3 h4 h5 h6 h7 h8
    rw [regionsScan]
    refine ⟨?_, h4, ?_, h6, h7⟩
    · intro reg hreg
      obtain ⟨hn, hne, hp⟩ := h3 reg hreg
      exact ⟨hn, hne, fun p hpm => ⟨(hp p hpm).1, (hp p hpm).2.1⟩⟩
    · intro p hpA hpt
      by_cases hpr : p ∈ rem
      · exact absurd (h8 p hpA hpt hpr) (List.not_mem_nil p)
      · exact h5 p hpA hpr
  | cons c cs ih =>
    intro rem acc h1 h2 h3 h4 h5 h6 h7 h8
    by_cases hcond : g c.1 c.2 = t ∧ c ∈ rem
    · rw [regionsScan, if_pos hcond]
      obtain ⟨hct, hcr⟩ := hcond
      have hcA : c ∈ allCells cols rows := h1 hcr
      have hsub : (bfs cols rows g t [c] [] (rem.erase c)).2 ⊆ rem.erase c :=
        bfs_sub cols rows g t [c] [] (rem.erase c)
      have hsub' : (bfs cols rows g t [c] [] (rem.erase c)).2 ⊆ rem :=
        hsub.trans (Finset.erase_subset c rem)
      have hcnot : c ∉ (bfs cols rows g t [c] [] (rem.erase c)).2 := by
        intro hc
        exact absurd (hsub hc) (by simp)
      have hset := bfs_set cols rows g t [c] [] (rem.erase c)
      have hmemR : ∀ p : Pos, p ∈ (bfs cols rows g t [c] [] (rem.erase c)).1 ↔
          (p ∈ rem ∧ p ∉ (bfs cols rows g t [c] [] (rem.erase c)).2) := by
        intro p
        rw [← List.mem_toFinset, hset]
        simp only [List.toFinset_nil, List.toFinset_cons, insert_emptyc_eq,
          Finset.empty_union, Finset.mem_union, Finset.mem_insert,
          Finset.mem_singleton, Finset.not_mem_empty, or_false, Finset.mem_sdiff,
          Finset.mem_erase]
        constructor
        · rintro (rfl | ⟨⟨hne, hpr⟩, hnp⟩)
          · exact ⟨hcr, hcnot⟩
          · exact ⟨hpr, hnp⟩
        · rintro ⟨hpr, hnp⟩
          by_cases hpc : p = c
          · exact Or.inl hpc
          · exact Or.inr ⟨⟨hpc, hpr⟩, hnp⟩
      have hRT : ∀ p ∈ (bfs cols rows g t [c] [] (rem.erase c)).1,
          p ∈ allCells cols rows ∧ g p.1 p.2 = t ∧
          p ∉ (bfs cols rows g t [c] [] (rem.erase c)).2 := by
        intro p hp
        obtain ⟨hpr, hnp⟩ := (hmemR p).mp hp
        refine ⟨h1 hpr, ?_, hnp⟩
        by_cases hpc : p = c
        · rw [hpc]
          exact hct
        · exact (bfs_T cols rows g t [c] [] (rem.erase c) p
            (Finset.mem_erase.mpr ⟨hpc, hpr⟩) hnp).2
      have hRnodup : (bfs cols rows g t [c] [] (rem.erase c)).1.Nodup := by
        refine bfs_nodup cols rows g t [c] [] (rem.erase c) (by simp) ?_
        intro p hp
        have hpc : p = c := by simpa using hp
        rw [hpc]
        simp
      have hcmem : c ∈ (bfs cols rows g t [c] [] (rem.erase c)).1 :=
        (hmemR c).mpr ⟨hcr, hcnot⟩
      have hclosed0 : ∀ p ∈ (bfs cols rows g t [c] [] (rem.erase c)).1, ∀ q,
          stepAdj cols rows g t p q →
          q ∉ (bfs cols rows g t [c] [] (rem.erase c)).2 :=
        bfs_closed cols rows g t [c] [] (rem.erase c) (by simp)
      have hreach : ∀ p ∈ (bfs cols rows g t [c] [] (rem.erase c)).1,
          reach cols rows g t c p := by
        refine bfs_reach cols rows g t [c] [] (rem.erase c) c ?_
        intro p hp
        have hpc : p = c := by simpa using hp
        rw [hpc]
        exact Relation.ReflTransGen.refl
      refine ih (bfs cols rows g t [c] [] (rem.erase c)).2
        (acc ++ [(bfs cols rows g t [c] [] (rem.erase c)).1])
        (hsub'.trans h1) ?_ ?_ ?_ ?_ ?_ ?_ ?_
      · intro p hpA hnp
        by_cases hpr : p ∈ rem
        · by_cases hpc : p = c
          · rw [hpc]
            exact hct
          · exact (bfs_T cols rows g t [c] [] (rem.erase c) p
              (Finset.mem_erase.mpr ⟨hpc, hpr⟩) hnp).2
        · exact h2 p hpA hpr
      · intro reg hreg
        rcases List.mem_append.mp hreg with hreg' | hreg'
        · obtain ⟨hn, hne, hp⟩ := h3 reg hreg'
          refine ⟨hn, hne, fun p hpm => ⟨(hp p hpm).1, (hp p hpm).2.1, ?_⟩⟩
          exact fun hc => (hp p hpm).2.2 (hsub' hc)
        · have hreg'' : reg = (bfs cols rows g t [c] [] (rem.erase c)).1 := by
            simpa using hreg'
          rw [hreg'']
          exact ⟨hRnodup, List.ne_nil_of_mem hcmem, hRT⟩
      · rw [List.pairwise_append]
        refine ⟨h4, by simp, ?_⟩
        intro r1 hr1 r2 hr2 p hp1
        have hr2' : r2 = (bfs cols rows g t [c] [] (rem.erase c)).1 := by
          simpa using hr2
        rw [hr2']
        intro hp2
        have hprem : p ∈ rem := ((hmemR p).mp hp2).1
        exact ((h3 r1 hr1).2.2 p hp1).2.2 hprem
      · intro p hpA hnp
        by_cases hpr : p ∈ rem
        · exact ⟨(bfs cols rows g t [c] [] (rem.erase c)).1, by simp,
            (hmemR p).mpr ⟨hpr, hnp⟩⟩
        · obtain ⟨reg, hreg, hpm⟩ := h5 p hpA hpr
          exact ⟨reg, List.mem_append.mpr (Or.inl hreg), hpm⟩
      · intro reg hreg p hp q hq
        rcases List.mem_append.mp hreg with hreg' | hreg'
        · exact h6 reg hreg' p hp q hq
        · have hreg'' : reg = (bfs cols rows g t [c] [] (rem.erase c)).1 := by
            simpa using hreg'
          subst hreg''
          have hqA : q ∈ allCells cols rows := (mem_allCells cols rows q).mpr hq.2.1
          have hqnp := hclosed0 p hp q hq
          by_cases hqr : q ∈ rem
          · exact (hmemR q).mpr ⟨hqr, hqnp⟩
          · obtain ⟨reg', hreg', hqm⟩ := h5 q hqA hqr
            have hpT := hRT p hp
            have hqp : stepAdj cols rows g t q p :=
              stepAdj_symm cols rows g t p q
                ((mem_allCells cols rows p).mp hpT.1) hpT.2.1 hq
            have hpm' : p ∈ reg' := h6 reg' hreg' q hqm p hqp
            have hpnr : p ∉ rem := ((h3 reg' hreg').2.2 p hpm').2.2
            exact absurd ((hmemR p).mp hp).1 hpnr
      · intro reg hreg
        rcases List.mem_append.mp hreg with hreg' | hreg'
        · exact h7 reg hreg'
        · have hreg'' : reg = (bfs cols rows g t [c] [] (rem.erase c)).1 := by
            simpa using hreg'
          subst hreg''
          exact ⟨c, hcmem, hreach⟩
      · intro p hpA hpt hpr
        have hp' : p ∈ c :: cs := h8 p hpA hpt (hsub' hpr)
        rcases List.mem_cons.mp hp' with rfl | hp''
        · exact absurd hpr hcnot
        · exact hp''
    · rw [regionsScan, if_neg hcond]
      refine ih rem acc h1 h2 h3 h4 h5 h6 h7 ?_
      intro p hpA hpt hpr
      have hp' : p ∈ c :: cs := h8 p hpA hpt hpr
      rcases List.mem_cons.mp hp' with rfl | hp''
      · exact absurd ⟨hpt, hpr⟩ hcond
      · exact hp''

theorem get_regions_spec (cols rows : Nat) (g : Grid) (t : Nat) :
    (∀ reg ∈ get_regions cols rows g t, reg.Nodup ∧ reg ≠ [] ∧
      ∀ p ∈ reg, p ∈ allCells cols rows ∧ g p.1 p.2 = t) ∧
    List.Pairwise (fun r1 r2 => ∀ p ∈ r1, p ∉ r2) (get_regions cols rows g t) ∧
    (∀ p ∈ allCells cols rows, g p.1 p.2 = t →
      ∃ reg ∈ get_regions cols rows g t, p ∈ reg) ∧
    (∀ reg ∈ get_regions cols rows g t, ∀ p ∈ reg, ∀ q,
      stepAdj cols rows g t p q → q ∈ reg) ∧
    (∀ reg ∈ get_regions cols rows g t, ∃ c0 ∈ reg,
      ∀ p ∈ reg, reach cols rows g t c0 p) := by
  have h := regionsScan_spec cols rows g t (scanOrder cols rows) (allCells cols rows) []
    (fun _ hx => hx) (fun p hp hnp => absurd hp hnp) (by simp) (by simp)
    (fun p hp hnp => absurd hp hnp) (by simp) (by simp)
    (fun p hp _ _ => (mem_scanOrder cols rows p).mpr ((mem_allCells cols rows p).mp hp))
  exact h

theorem region_reach_closed (cols rows : Nat) (g : Grid) (t : Nat) (reg : List Pos)
    (hclosed : ∀ p ∈ reg, ∀ q, stepAdj cols rows g t p q → q ∈ reg) :
    ∀ p ∈ reg, ∀ q, reach cols rows g t p q → q ∈ reg := by
  intro p hp q hq
  induction hq with
  | refl => exact hp
  | tail _ hstep ih => exact hclosed _ ih _ hstep

theorem insert_desc_perm (a : List Pos) :
    ∀ l : List (List Pos), (insert_desc a l).Perm (a :: l) := by
  intro l
  induction l with
  | nil => exact List.Perm.refl _
  | cons b bs ih =>
    rw [insert_desc]
    split
    · exact ((ih.cons b).trans (List.Perm.swap a b bs))
    · exact List.Perm.refl _

theorem sort_len_desc_perm :
    ∀ l : List (List Pos), (sort_len_desc l).Perm l := by
  intro l
  induction l with
  | nil => exact List.Perm.refl _
  | cons a as ih =>
    rw [sort_len_desc]
    exact (insert_desc_perm a (sort_len_desc as)).trans (ih.cons a)

theorem headD_insert_desc (a : List Pos) (l : List (List Pos)) :
    (insert_desc a l).headD [] =
      if a.length < (l.headD []).length then l.headD [] else a := by
  cases l with
  | nil => simp [insert_desc]
  | cons b bs =>
    rw [insert_desc]
    split
    · rename_i h
      simp only [List.headD_cons]
      rw [if_pos h]
    · rename_i h
      simp only [List.headD_cons]
      rw [if_neg h]

theorem first_largest_gen :
    ∀ (l : List (List Pos)) (best : List Pos),
      l.foldl (fun b r => if b.length < r.length then r else b) best
        = if best.length < (first_largest l).length then first_largest l else best := by
  intro l
  induction l with
  | nil =>
    intro best
    simp [first_largest]
  | cons r rs ih =>
    intro best
    have hfl : first_largest (r :: rs)
        = if (if ([] : List Pos).length < r.length then r else ([] : List Pos)).length
            < (first_largest rs).length then first_largest rs
          else (if ([] : List Pos).length < r.length then r else ([] : List Pos)) := by
      rw [first_largest, List.foldl_cons, ih]
    rw [List.foldl_cons, ih, hfl]
    have hS : (if ([] : List Pos).length < r.length then r else ([] : List Pos)).length
        = r.length := by
      split
      · rfl
      · rename_i h
        simp only [List.length_nil] at h ⊢
        omega
    rw [hS]
    by_cases h1 : r.length < (first_largest rs).length
    · rw [if_pos h1]
      by_cases h2 : best.length < r.length
      · rw [if_pos h2, if_pos h1, if_pos (by omega : best.length < (first_largest rs).length)]
      · rw [if_neg h2]
    · rw [if_neg h1]
      by_cases h2 : best.length < r.length
      · rw [if_pos h2, if_neg h1]
        have hlen : best.length <
            (if ([] : List Pos).length < r.length then r else ([] : List Pos)).length := by
          rw [hS]
          exact h2
        rw [if_pos hlen]
        rw [if_pos (by simp only [List.length_nil]; omega : ([] : List Pos).length < r.length)]
      · rw [if_neg h2]
        rw [if_neg (by omega : ¬ best.length < (first_largest rs).length)]
        have hlen : ¬ best.length <
            (if ([] : List Pos).length < r.length then r else ([] : List Pos)).length := by
          rw [hS]
          exact h2
        rw [if_neg hlen]

theorem headD_sort_eq_first_largest :
    ∀ l : List (List Pos), (sort_len_desc l).headD [] = first_largest l := by
  intro l
  induction l with
  | nil => rfl
  | cons a as ih =>
    rw [sort_len_desc, headD_insert_desc, ih]
    have hfl : first_largest (a :: as)
        = if (if ([] : List Pos).length < a.length then a else ([] : List Pos)).length
            < (first_largest as).length then first_largest as
          else (if ([] : List Pos).length < a.length then a else ([] : List Pos)) := by
      rw [first_largest, List.foldl_cons, first_largest_gen]
    rw [hfl]
    have hS : (if ([] : List Pos).length < a.length then a else ([] : List Pos)).length
        = a.length := by
      split
      · rfl
      · rename_i h
        simp only [List.length_nil] at h ⊢
        omega
    rw [hS]
    by_cases h1 : a.length < (first_largest as).length
    · rw [if_pos h1, if_pos h1]
    · rw [if_neg h1, if_neg h1]
      split
      · rfl
      · rename_i h
        simp only [List.length_nil] at h
        have h0 : a.length = 0 := by omega
        exact (List.eq_nil_of_length_eq_zero h0)

theorem first_largest_gen_ge :
    ∀ (l : List (List Pos)) (best : List Pos),
      best.length ≤ (l.foldl (fun b r => if b.length < r.length then r else b) best).length ∧
      ∀ x ∈ l, x.length ≤
        (l.foldl (fun b r => if b.length < r.length then r else b) best).length := by
  intro l
  induction l with
  | nil =>
    intro best
    exact ⟨le_refl _, fun x hx => absurd hx (List.not_mem_nil x)⟩
  | cons r rs ih =>
    intro best
    rw [List.foldl_cons]
    have hstep1 : best.length ≤ (if best.length < r.length then r else best).length := by
      split
      · omega
      · exact le_refl _
    have hstep2 : r.length ≤ (if best.length < r.length then r else best).length := by
      split
      · exact le_refl _
      · omega
    obtain ⟨hb, hxs⟩ := ih (if best.length < r.length then r else best)
    refine ⟨hstep1.trans hb, ?_⟩
    intro x hx
    rcases List.mem_cons.mp hx with rfl | hx'
    · exact hstep2.trans hb
    · exact hxs x hx'

theorem first_largest_maximal :
    ∀ (l : List (List Pos)) (x : List Pos), x ∈ l →
      x.length ≤ (first_largest l).length := by
  intro l x hx
  exact (first_largest_gen_ge l []).2 x hx

theorem prune_cells (cols rows : Nat) (g : Grid) :
    ∀ i j : Int, prune_small_regions cols rows g i j =
      if inBounds cols rows i j ∧ g i j = 0 ∧
          (i, j) ∉ first_largest (get_regions cols rows g 0) then 1 else g i j := by
  intro i j
  obtain ⟨hO1, hO2, hO3, hO4, hO5⟩ := get_regions_spec cols rows g 0
  by_cases hemp : (get_regions cols rows g 0).isEmpty = true
  · have hnil : get_regions cols rows g 0 = [] := List.isEmpty_iff.mp hemp
    simp only [prune_small_regions]
    rw [if_pos hemp, if_neg ?hc]
    case hc =>
      rintro ⟨hin, h0, _⟩
      obtain ⟨reg, hreg, _⟩ := hO3 (i, j) ((mem_allCells cols rows (i, j)).mpr hin) h0
      rw [hnil] at hreg
      exact absurd hreg (List.not_mem_nil reg)
  · have hsymmR : Symmetric (fun r1 r2 : List Pos => ∀ p ∈ r1, p ∉ r2) := by
      intro a b h p hpb hpa
      exact h p hpa hpb
    rcases hs : sort_len_desc (get_regions cols rows g 0) with _ | ⟨k, tl⟩
    · have hperm0 := sort_len_desc_perm (get_regions cols rows g 0)
      rw [hs] at hperm0
      have : get_regions cols rows g 0 = [] := hperm0.symm.eq_nil
      rw [this] at hemp
      simp at hemp
    · have hperm : (k :: tl).Perm (get_regions cols rows g 0) := by
        rw [← hs]
        exact sort_len_desc_perm (get_regions cols rows g 0)
      have khead : k = first_largest (get_regions cols rows g 0) := by
        have hh := headD_sort_eq_first_largest (get_regions cols rows g 0)
        rw [hs] at hh
        simpa using hh
      have hpair : List.Pairwise (fun r1 r2 => ∀ p ∈ r1, p ∉ r2) (k :: tl) :=
        (List.Perm.pairwise_iff (fun h => hsymmR h) hperm).mpr hO2
      have hktl : ∀ r2 ∈ tl, ∀ p ∈ k, p ∉ r2 := (List.pairwise_cons.mp hpair).1
      simp only [prune_small_regions]
      rw [if_neg hemp, hs]
      simp only [List.tail_cons]
      have anyiff : ((tl.any fun reg => decide ((i, j) ∈ reg)) = true) ↔
          ∃ reg ∈ tl, (i, j) ∈ reg := by
        simp [List.any_eq_true]
      by_cases hany : ∃ reg ∈ tl, (i, j) ∈ reg
      · rw [if_pos (anyiff.mpr hany)]
        obtain ⟨reg, hregtl, hmem⟩ := hany
        have hreg : reg ∈ get_regions cols rows g 0 :=
          hperm.subset (List.mem_cons_of_mem k hregtl)
        have hprops := (hO1 reg hreg).2.2 (i, j) hmem
        have hnotk : (i, j) ∉ k := fun hik => hktl reg hregtl (i, j) hik hmem
        rw [if_pos ⟨(mem_allCells cols rows (i, j)).mp hprops.1, hprops.2,
          khead ▸ hnotk⟩]
      · rw [if_neg (fun hc => hany (anyiff.mp hc)), if_neg ?hc2]
        case hc2 =>
          rintro ⟨hin, h0, hnk⟩
          obtain ⟨reg, hreg, hmem⟩ :=
            hO3 (i, j) ((mem_allCells cols rows (i, j)).mpr hin) h0
          have hreg' : reg ∈ k :: tl := hperm.symm.subset hreg
          rcases List.mem_cons.mp hreg' with rfl | hregtl
          · exact hnk (khead ▸ hmem)
          · exact hany ⟨reg, hregtl, hmem⟩

theorem first_largest_mem (l : List (List Pos)) (hne : l ≠ []) : first_largest l ∈ l := by
  have hperm := sort_len_desc_perm l
  rcases hs : sort_len_desc l with _ | ⟨k, tl⟩
  · rw [hs] at hperm
    exact absurd hperm.symm.eq_nil hne
  · have khead : k = first_largest l := by
      have hh := headD_sort_eq_first_largest l
      rw [hs] at hh
      simpa using hh
    rw [hs] at hperm
    rw [← khead]
    exact hperm.subset (List.mem_cons_self k tl)

theorem prune_count (cols rows : Nat) (g : Grid) :
    (get_regions cols rows (prune_small_regions cols rows g) 0).length
      = if (get_regions cols rows g 0).isEmpty then 0 else 1 := by
  obtain ⟨hO1, hO2, hO3, hO4, hO5⟩ := get_regions_spec cols rows g 0
  by_cases hemp : (get_regions cols rows g 0).isEmpty = true
  · have hpg : prune_small_regions cols rows g = g := by
      simp only [prune_small_regions]
      rw [if_pos hemp]
    rw [hpg, if_pos hemp, List.isEmpty_iff.mp hemp]
    rfl
  · have hrne : get_regions cols rows g 0 ≠ [] := by
      intro hc
      rw [hc] at hemp
      simp at hemp
    have hkmem : first_largest (get_regions cols rows g 0) ∈ get_regions cols rows g 0 :=
      first_largest_mem (get_regions cols rows g 0) hrne
    have hkprops := hO1 _ hkmem
    obtain ⟨ck, hck, hreachk⟩ := hO5 _ hkmem
    have hfloor : ∀ p : Pos,
        (p ∈ allCells cols rows ∧ prune_small_regions cols rows g p.1 p.2 = 0) ↔
        p ∈ first_largest (get_regions cols rows g 0) := by
      intro p
      constructor
      · rintro ⟨hpA, hp0⟩
        rw [prune_cells cols rows g p.1 p.2] at hp0
        by_cases hcond : inBounds cols rows p.1 p.2 ∧ g p.1 p.2 = 0 ∧
            (p.1, p.2) ∉ first_largest (get_regions cols rows g 0)
        · rw [if_pos hcond] at hp0
          exact absurd hp0 (by norm_num)
        · rw [if_neg hcond] at hp0
          have hin := (mem_allCells cols rows p).mp hpA
          by_contra hnc
          exact hcond ⟨hin, hp0, by simpa using hnc⟩
      · intro hpk
        have hprops := hkprops.2.2 p hpk
        refine ⟨hprops.1, ?_⟩
        rw [prune_cells cols rows g p.1 p.2, if_neg ?hnc]
        case hnc =>
          rintro ⟨_, _, hnk⟩
          exact hnk (by simpa using hpk)
        exact hprops.2
    have htrans : ∀ p ∈ first_largest (get_regions cols rows g 0), ∀ q,
        reach cols rows g 0 p q →
        q ∈ first_largest (get_regions cols rows g 0) ∧
        reach cols rows (prune_small_regions cols rows g) 0 p q := by
      intro p hp q hq
      induction hq with
      | refl => exact ⟨hp, Relation.ReflTransGen.refl⟩
      | tail hb hstep ih =>
        rename_i b c'
        obtain ⟨hbk, hbreach⟩ := ih
        have hck' : c' ∈ first_largest (get_regions cols rows g 0) :=
          hO4 _ hkmem b hbk c' hstep
        refine ⟨hck', Relation.ReflTransGen.tail hbreach ⟨hstep.1, hstep.2.1, ?_⟩⟩
        exact ((hfloor c').mpr hck').2
    obtain ⟨hP1, hP2, hP3, hP4, hP5⟩ :=
      get_regions_spec cols rows (prune_small_regions cols rows g) 0
    rw [if_neg hemp]
    have hkne : first_largest (get_regions cols rows g 0) ≠ [] := hkprops.2.1
    obtain ⟨p0, hp0⟩ := List.exists_mem_of_ne_nil _ hkne
    have hp0f := (hfloor p0).mpr hp0
    obtain ⟨reg0, hreg0, hp0m⟩ := hP3 p0 hp0f.1 hp0f.2
    have hsubk : ∀ reg ∈ get_regions cols rows (prune_small_regions cols rows g) 0,
        ∀ p ∈ reg, p ∈ first_largest (get_regions cols rows g 0) := by
      intro reg hreg p hp
      have hpr := (hP1 reg hreg).2.2 p hp
      exact (hfloor p).mp ⟨hpr.1, hpr.2⟩
    rcases hre : get_regions cols rows (prune_small_regions cols rows g) 0
      with _ | ⟨r1, rest⟩
    · rw [hre] at hreg0
      exact absurd hreg0 (List.not_mem_nil reg0)
    · rcases rest with _ | ⟨r2, rest'⟩
      · rfl
      · rw [hre] at hP1 hP2 hP4 hsubk
        have h1ne := (hP1 r1 (by simp)).2.1
        have h2ne := (hP1 r2 (by simp)).2.1
        obtain ⟨p1, hp1⟩ := List.exists_mem_of_ne_nil _ h1ne
        obtain ⟨p2, hp2⟩ := List.exists_mem_of_ne_nil _ h2ne
        have hp1k := hsubk r1 (by simp) p1 hp1
        have hp2k := hsubk r2 (by simp) p2 hp2
        have h1 := htrans ck hck p1 (hreachk p1 hp1k)
        have h2 := htrans ck hck p2 (hreachk p2 hp2k)
        have hckfl := (hfloor ck).mpr hck
        have hsymm1 : reach cols rows (prune_small_regions cols rows g) 0 p1 ck :=
          reach_symm cols rows (prune_small_regions cols rows g) 0 ck p1
            ((mem_allCells cols rows ck).mp hckfl.1) hckfl.2 h1.2
        have hreach12 : reach cols rows (prune_small_regions cols rows g) 0 p1 p2 :=
          hsymm1.trans h2.2
        have hp2r1 : p2 ∈ r1 :=
          region_reach_closed cols rows (prune_small_regions cols rows g) 0 r1
            (hP4 r1 (by simp)) p1 hp1 p2 hreach12
        have hdis := (List.pairwise_cons.mp hP2).1 r2 (by simp)
        exact absurd hp2 (hdis p2 hp2r1)

theorem smooth_const_wall (cols rows : Nat) :
    smooth cols rows (fun _ _ => 1) = fun _ _ => 1 := by
  funext i j
  have hn : neighborSum cols rows (fun _ _ => 1) i j = 8 := by
    simp [neighborSum, shifts]
  simp only [smooth, hn]
  split
  · rfl
  · norm_num

theorem enforce_border_const_wall (cols rows : Nat) :
    enforce_border cols rows (fun _ _ => 1) = fun _ _ => 1 := by
  funext i j
  simp [enforce_border]

theorem no_regions_of_no_T (cols rows : Nat) (g : Grid) (t : Nat)
    (h : ∀ i j : Int, g i j ≠ t) : get_regions cols rows g t = [] := by
  rcases hr : get_regions cols rows g t with _ | ⟨reg, rest⟩
  · rfl
  · have h1 := (get_regions_spec cols rows g t).1 reg
      (by rw [hr]; exact List.mem_cons_self _ _)
    obtain ⟨p, hp⟩ := List.exists_mem_of_ne_nil reg h1.2.1
    exact absurd (h1.2.2 p hp).2 (h p.1 p.2)

/-- C2 counterexample: running the full generation pipeline on the 3-by-3
grid with the all-wall noise draw (a possible outcome of the random fill for
any fill probability strictly between 0 and 1) leaves no floor cell at all;
pruning is a no-op, the stairs fall back to the grid center, and flood fill
finds zero floor regions, not exactly one. -/
theorem claim2_counterexample :
    (get_regions 3 3 (generate 3 3 (fun _ _ => 1) 0 0).1 0).length ≠ 1 := by
  have h1 := enforce_border_const_wall 3 3
  have h2 : (smooth 3 3)^[5] (fun _ _ => 1) = fun _ _ => 1 :=
    Function.iterate_fixed (smooth_const_wall 3 3) 5
  have h3 : get_regions 3 3 (fun _ _ => 1) 0 = [] :=
    no_regions_of_no_T 3 3 _ 0 (by intro i j; norm_num)
  have h4 : prune_small_regions 3 3 (fun _ _ => 1) = fun _ _ => 1 := by
    simp [prune_small_regions, h3]
  have h5 : floor_points 3 3 (fun _ _ => 1) = [] := by
    rw [List.eq_nil_iff_forall_not_mem]
    intro p hp
    have hm := (mem_floor_points 3 3 (fun _ _ => 1) p).mp hp
    simpa using hm.2
  have h6 : get_random_floor_point 3 3 (fun _ _ => 1) 0 = ((1 : Int), (1 : Int)) := by
    simp [get_random_floor_point, h5]
  have hG : (generate 3 3 (fun _ _ => 1) 0 0).1
      = fun i j => if (i, j) = ((1 : Int), (1 : Int)) then 2 else 1 := by
    simp only [generate, place_down]
    rw [h1, h2, h4, h6]
  have h7 : get_regions 3 3
      (fun i j => if (i, j) = ((1 : Int), (1 : Int)) then 2 else 1) 0 = [] := by
    refine no_regions_of_no_T 3 3 _ 0 ?_
    intro i j
    dsimp only
    split <;> norm_num
  rw [hG, h7]
  norm_num

/-- C2 amended: flood fill over 4-adjacency applied immediately after
pruning finds at most one maximal Floor region: exactly one when the
original grid had any Floor region and zero otherwise, while the subsequent
stair placement of the pipeline overwrites floor cells with stairs labels
(and a degenerate all-wall generation yields zero regions), so the full
pipeline does not always produce exactly one region.  Pruning converts to
Wall exactly the in-bounds Floor cells outside the largest region, with ties
between equal-size regions broken in favor of the first-discovered region in
lowest scan order: the head of the stable largest-first sort is the
first-discovered region of maximal size, and every region is at most that
size. -/
theorem claim2_prune_largest_region (cols rows : Nat) (g : Grid) :
    (∀ i j : Int, prune_small_regions cols rows g i j =
      if inBounds cols rows i j ∧ g i j = 0 ∧
          (i, j) ∉ first_largest (get_regions cols rows g 0) then 1 else g i j) ∧
    (sort_len_desc (get_regions cols rows g 0)).headD []
      = first_largest (get_regions cols rows g 0) ∧
    ((get_regions cols rows g 0).all fun r =>
      decide (r.length ≤ (first_largest (get_regions cols rows g 0)).length)) = true ∧
    (get_regions cols rows (prune_small_regions cols rows g) 0).length
      = if (get_regions cols rows g 0).isEmpty then 0 else 1 := by
  refine ⟨prune_cells cols rows g, headD_sort_eq_first_largest _, ?_, prune_count cols rows g⟩
  rw [List.all_eq_true]
  intro r hr
  rw [decide_eq_true_eq]
  exact first_largest_maximal _ r hr
